import Mathlib

/-!
Verification of the epify episode-organizing core (Go) against its
natural-language specification.  The Go sources are shallowly embedded:
strings are Lean `String`s, Go `int` is `Int` with explicit int64
clamping/wrapping where it matters, the filesystem is an explicit
association list threaded through the operations, and `slices.SortFunc`
is a faithful port of Go's pattern-defeating quicksort (`zsortanyfunc.go`).
-/

set_option maxRecDepth 4000

/-! ### Character and string basics -/

/-- ASCII decimal digit test; matches Go regexp `\d` which is `[0-9]`. -/
def isDigitCh (c : Char) : Bool := '0' ≤ c && c ≤ '9'

/-- Numeric value of a list of ASCII digits, most significant first. -/
def digitsVal : List Char → Nat
  | [] => 0
  | c :: cs => (c.toNat - '0'.toNat) * 10 ^ cs.length + digitsVal cs

/-- `isPre pat l` holds when `pat` is a prefix of `l` (Go `strings.HasPrefix`). -/
def isPre : List Char → List Char → Bool
  | [], _ => true
  | _ :: _, [] => false
  | a :: as, b :: bs => a = b && isPre as bs

/-- First index at which `pat` occurs in `hay` (Go `strings.Index`, as Option). -/
def subIdx (pat : List Char) : List Char → Option Nat
  | [] => if isPre pat [] then some 0 else none
  | c :: rest =>
    if isPre pat (c :: rest) then some 0
    else (subIdx pat rest).map (· + 1)

/-- Go `strings.Contains(hay, pat)`. -/
def containsSub (hay pat : String) : Bool := (subIdx pat.data hay.data).isSome

/-- Go `strings.Cut(s, sep)`: split around the first instance of `sep`. -/
def goCut (s sep : String) : String × String × Bool :=
  match subIdx sep.data s.data with
  | some i => (⟨s.data.take i⟩, ⟨s.data.drop (i + sep.data.length)⟩, true)
  | none => (s, "", false)

/-- Go `strings.Index(s, sub)` with its `-1` convention. -/
def goIndex (s sub : String) : Int :=
  match subIdx sub.data s.data with
  | some i => (i : Int)
  | none => -1

/-! ### strconv.Atoi

`goAtoi s = (v, ok)` models Go's `strconv.Atoi` (= `ParseInt(s, 10, 0)` on a
64-bit platform): `ok = false` on a syntax or range error; on a range error
the returned value is clamped to the int64 limits, which callers that ignore
the error (media.go's `epn, _ = strconv.Atoi(m[1])`) still use. -/

def maxInt64 : Int := 2 ^ 63 - 1

def minInt64 : Int := -(2 ^ 63)

/-- Digits-only parse of a char list to `some` Nat, `none` on empty/non-digit. -/
def parseDigits : List Char → Option Nat
  | [] => none
  | cs => if cs.all isDigitCh then some (digitsVal cs) else none

def goAtoi (s : String) : Int × Bool :=
  match s.data with
  | [] => (0, false)
  | c :: rest =>
    if c = '+' then
      match parseDigits rest with
      | none => (0, false)
      | some n => if (n : Int) > maxInt64 then (maxInt64, false) else ((n : Int), true)
    else if c = '-' then
      match parseDigits rest with
      | none => (0, false)
      | some n => if (-(n : Int)) < minInt64 then (minInt64, false) else (-(n : Int), true)
    else
      match parseDigits (c :: rest) with
      | none => (0, false)
      | some n => if (n : Int) > maxInt64 then (maxInt64, false) else ((n : Int), true)

/-- The value component of `goAtoi` (what a caller ignoring the error sees). -/
def atoiVal (s : String) : Int := (goAtoi s).1

/-- Go `cmp.Compare` on int64 values. -/
def intCompare (a b : Int) : Int := if a < b then -1 else if b < a then 1 else 0

/-- Wrap an unbounded Int to int64 two's-complement (Go `int` addition overflow). -/
def wrap64 (x : Int) : Int := (x + 2 ^ 63) % 2 ^ 64 - 2 ^ 63

/-- Go `fmt.Sprintf("%02d", n)`: decimal, zero padded on the left to width 2. -/
def fmt02d (n : Int) : String :=
  let s := toString n
  if s.length < 2 then "0" ++ s else s

/-! ### filepath helpers (Unix rules, on cleaned inputs) -/

/-- Go `filepath.Base` (Unix): strip trailing slashes, keep the last element. -/
def goBase (p : String) : String :=
  match (p.data.reverse.dropWhile (· = '/')).takeWhile (· ≠ '/') with
  | [] => if p.data = [] then "." else if p.data.all (· = '/') then "/" else "."
  | cs => ⟨cs.reverse⟩

/-- Helper for `goExt`: walk from the right collecting the extension. -/
def goExtAux : List Char → List Char → List Char
  | [], _ => []
  | c :: rest, acc =>
    if c = '/' then []
    else if c = '.' then '.' :: acc
    else goExtAux rest (c :: acc)

/-- Go `filepath.Ext`: suffix beginning at the final dot in the final element. -/
def goExt (p : String) : String := ⟨goExtAux p.data.reverse []⟩

/-- Go `filepath.Dir` (Unix, modeled on already-clean paths): everything before
the last slash, with trailing slashes dropped; `"."` when there is no slash. -/
def goDir (p : String) : String :=
  if p.data.all (· ≠ '/') then "."
  else
    match (p.data.reverse.dropWhile (· ≠ '/')).dropWhile (· = '/') with
    | [] => "/"
    | cs => ⟨cs.reverse⟩

/-- Go `filepath.Join(a, b)`, modeled for a nonempty cleaned `a` and a clean
relative `b` (the only way the repository calls it). -/
def goJoin (a b : String) : String := a ++ "/" ++ b

/-! ### Maximal digit runs: Go `regexp.MustCompile(`\d+`).FindAllString(s, -1)` -/

theorem dropWhile_len_le (p : α → Bool) (l : List α) :
    (l.dropWhile p).length ≤ l.length := by
  induction l with
  | nil => simp [List.dropWhile]
  | cons a l ih =>
    by_cases h : p a
    · simpa [List.dropWhile, h] using Nat.le_succ_of_le ih
    · simp [List.dropWhile, h]

/-- All maximal runs of ASCII digits in a char list, left to right. -/
def digitRunsCh : List Char → List (List Char)
  | [] => []
  | c :: cs =>
    if isDigitCh c then
      (c :: cs.takeWhile isDigitCh) :: digitRunsCh (cs.dropWhile isDigitCh)
    else
      digitRunsCh cs
termination_by l => l.length
decreasing_by
  · simp only [List.length_cons]
    exact Nat.lt_succ_of_le (dropWhile_len_le _ _)
  · simp

/-- `re.FindAllString(s, -1)` for `re = \d+`. -/
def digitRuns (s : String) : List String := (digitRunsCh s.data).map (⟨·⟩)

/-! ### The episode marker regex `E(\d+)\.` (media.go)

`findEpisodeDigits s` is `episodeRe.FindStringSubmatch(s)` restricted to the
capture group: the digits of the leftmost occurrence of `E`, one or more
digits, `.`; `none` when the pattern does not occur. -/

/-- Does `E(\d+)\.` match at the head of `cs`?  If so return the digits. -/
def epMarkerAt (cs : List Char) : Option (List Char) :=
  match cs with
  | [] => none
  | c :: rest =>
    if c = 'E' then
      if rest.takeWhile isDigitCh ≠ [] ∧ (rest.dropWhile isDigitCh).head? = some '.' then
        some (rest.takeWhile isDigitCh)
      else none
    else none

/-- Digits of the leftmost match of `E(\d+)\.` in `cs`. -/
def findEpDigitsCh : List Char → Option (List Char)
  | [] => none
  | c :: rest =>
    match epMarkerAt (c :: rest) with
    | some ds => some ds
    | none => findEpDigitsCh rest

def findEpisodeDigits (s : String) : Option String := (findEpDigitsCh s.data).map (⟨·⟩)

/-! ### Byte-lexicographic string order (os.ReadDir sorts entries by name) -/

/-- Lexicographic `≤` on char lists; on UTF-8 data this agrees with Go's
bytewise string order because UTF-8 is order-preserving. -/
def lexLeCh : List Char → List Char → Bool
  | [], _ => true
  | _ :: _, [] => false
  | a :: as, b :: bs => if a < b then true else if b < a then false else lexLeCh as bs

def lexLe (a b : String) : Bool := lexLeCh a.data b.data

/-- Insert into a `≤`-sorted list (used to model ReadDir's sorted listing). -/
def lexInsert (le : α → α → Bool) (x : α) : List α → List α
  | [] => [x]
  | y :: ys => if le x y then x :: y :: ys else y :: lexInsert le x ys

def lexSort (le : α → α → Bool) : List α → List α
  | [] => []
  | x :: xs => lexInsert le x (lexSort le xs)

/-! ### Filesystem model

An association list from absolute paths to `isDir` flags.  `os.Stat`,
`os.Mkdir`, `os.MkdirAll`, `os.Rename` and `os.ReadDir` are modeled from
their documented contracts on this state. -/

structure FS where
  ents : List (String × Bool)
deriving DecidableEq

def statFS (fs : FS) (p : String) : Option Bool :=
  (fs.ents.find? (fun e => e.1 = p)).map (·.2)

def existsFS (fs : FS) (p : String) : Bool := (statFS fs p).isSome

inductive GoErr where
  | emptyName
  | invalidYear (s : String)
  | invalidID (s : String)
  | mkdirAllFile (p : String)
  | invalidDirectory (p : String)
  | notADirectory (p : String)
  | invalidShowDirectory (p : String)
  | noEpisodesFound
  | invalidEpisodeStat (p : String)
  | episodeIsDirectory (p : String)
  | mustContainNumber (e : String)
  | invalidMatchIndex (i : Int)
  | invalidSeasonDirectory (p : String)
  | invalidSeason (s : String)
  | invalidEpisodeEntry (name : String)
  | invalidEpisodeNumber (name : String)
  | mkdirExists (p : String)
  | renameMissing (p : String)
  | dirEmpty (p : String)
  | noShowDirectory (t : String)
  | noSeasonDirectory (p : String)
deriving DecidableEq

/-- `os.MkdirAll(p, 0o755)`: succeeds (without change) when `p` is already a
directory, fails when `p` is an existing non-directory, creates it otherwise
(parents are outside the model; the repo only calls it one level deep). -/
def mkdirAllFS (fs : FS) (p : String) : Except GoErr FS :=
  match statFS fs p with
  | some true => .ok fs
  | some false => .error (.mkdirAllFile p)
  | none => .ok ⟨(p, true) :: fs.ents⟩

/-- `os.Mkdir(p, 0o755)`: fails when `p` already exists. -/
def mkdirFS (fs : FS) (p : String) : Except GoErr FS :=
  if existsFS fs p then .error (.mkdirExists p) else .ok ⟨(p, true) :: fs.ents⟩

/-- `os.Rename(src, dst)`: fails when `src` does not exist, otherwise moves
the entry, replacing any existing `dst`. -/
def renameFS (fs : FS) (src dst : String) : Except GoErr FS :=
  match statFS fs src with
  | none => .error (.renameMissing src)
  | some d => .ok ⟨(dst, d) :: (fs.ents.filter (fun e => e.1 ≠ src ∧ e.1 ≠ dst))⟩

/-- The name of a direct child of directory `d`, if `p` is one. -/
def childNameOf (d p : String) : Option String :=
  let pre := (d ++ "/").data
  if isPre pre p.data then
    match p.data.drop pre.length with
    | [] => none
    | cs => if cs.all (· ≠ '/') then some ⟨cs⟩ else none
  else none

/-- `os.ReadDir(d)` names: direct children of `d`, sorted by filename. -/
def readDirFS (fs : FS) (d : String) : List String :=
  lexSort lexLe (fs.ents.filterMap (fun e => childNameOf d e.1))

/-- `os.ReadDir(d)` with the `IsDir` bit of each entry. -/
def readDirEntsFS (fs : FS) (d : String) : List (String × Bool) :=
  lexSort (fun a b => lexLe a.1 b.1)
    (fs.ents.filterMap (fun e => (childNameOf d e.1).map (⟨·, e.2⟩)))

/-! ### Go `slices.SortFunc`: port of pdqsort (`slices/zsortanyfunc.go`)

The sort is ported over `List α` with Go's array writes expressed through
`lswap` (the only mutation the algorithm performs is the parallel swap
`data[i], data[j] = data[j], data[i]`).  Loops become recursion on the same
indices; the outer pdqsort loop/recursion takes explicit fuel (it always has
enough: every nested call strictly shrinks the interval). -/

def lgetD [Inhabited α] (l : List α) (i : Nat) : α := l.getD i default

/-- `data[i], data[j] = data[j], data[i]` (no-op out of bounds, which the
algorithm never does on the calls the repository makes). -/
def lswap [Inhabited α] (l : List α) (i j : Nat) : List α :=
  if i < l.length ∧ j < l.length then (l.set i (lgetD l j)).set j (lgetD l i) else l

section GoSort

variable {α : Type} [Inhabited α] (cmp : α → α → Int)

/-- Inner loop of `insertionSortCmpFunc`: sink `data[j]` left while smaller. -/
def sinkCF (data : List α) (a j : Nat) : List α :=
  if h : a < j ∧ cmp (lgetD data j) (lgetD data (j - 1)) < 0 then
    sinkCF (lswap data j (j - 1)) a (j - 1)
  else data
termination_by j
decreasing_by exact Nat.sub_lt (Nat.lt_of_le_of_lt (Nat.zero_le a) h.1) Nat.one_pos

/-- Outer loop of `insertionSortCmpFunc`. -/
def insCFAux (data : List α) (a i b : Nat) : List α :=
  if i < b then insCFAux (sinkCF cmp data a i) a (i + 1) b else data
termination_by b - i
decreasing_by omega

/-- Go `insertionSortCmpFunc(data, a, b, cmp)`. -/
def insertionSortCF (data : List α) (a b : Nat) : List α := insCFAux cmp data a (a + 1) b

/-- Go `siftDownCmpFunc(data, lo, hi, first, cmp)` (`root` is Go's `lo`). -/
def siftDownCF (data : List α) (root hi first : Nat) : List α :=
  if h : 2 * root + 1 < hi then
    let child1 :=
      if 2 * root + 1 + 1 < hi ∧
          cmp (lgetD data (first + (2 * root + 1))) (lgetD data (first + (2 * root + 1) + 1)) < 0
      then 2 * root + 1 + 1 else 2 * root + 1
    if cmp (lgetD data (first + root)) (lgetD data (first + child1)) < 0 then
      siftDownCF (lswap data (first + root) (first + child1)) child1 hi first
    else data
  else data
termination_by hi - root
decreasing_by
  split
  · omega
  · omega

/-- Heap-building loop of `heapSortCmpFunc`: sift roots `k-1, …, 0`. -/
def heapBuildCF (data : List α) (k hi first : Nat) : List α :=
  match k with
  | 0 => data
  | k + 1 => heapBuildCF (siftDownCF cmp data k hi first) k hi first

/-- Pop loop of `heapSortCmpFunc`: swap max to the end, for `i = k-1, …, 0`. -/
def heapPopCF (data : List α) (k first : Nat) : List α :=
  match k with
  | 0 => data
  | k + 1 => heapPopCF (siftDownCF cmp (lswap data first (first + k)) 0 k first) k first

/-- Go `heapSortCmpFunc(data, a, b, cmp)`. -/
def heapSortCF (data : List α) (a b : Nat) : List α :=
  let first := a
  let hi := b - a
  heapPopCF cmp (heapBuildCF cmp data ((hi - 1) / 2 + 1) hi first) hi first

/-- Go `reverseRangeCmpFunc` loop on inclusive indices. -/
def reverseRangeCF (data : List α) (i j : Nat) : List α :=
  if i < j then reverseRangeCF (lswap data i j) (i + 1) (j - 1) else data
termination_by j - i
decreasing_by omega

/-- Go `reverseRangeCmpFunc(data, a, b, cmp)`. -/
def reverseRangeC (data : List α) (a b : Nat) : List α := reverseRangeCF data a (b - 1)

inductive SortedHint where
  | unknown
  | increasing
  | decreasing
deriving DecidableEq

/-- Go `order2CmpFunc`: index pair ordered by the values, counting swaps. -/
def order2CF (data : List α) (a b swaps : Nat) : Nat × Nat × Nat :=
  if cmp (lgetD data b) (lgetD data a) < 0 then (b, a, swaps + 1) else (a, b, swaps)

/-- Go `medianCmpFunc`: index of the median of three, counting swaps. -/
def medianCF (data : List α) (a b c swaps : Nat) : Nat × Nat :=
  let r1 := order2CF cmp data a b swaps
  let r2 := order2CF cmp data r1.2.1 c r1.2.2
  let r3 := order2CF cmp data r1.1 r2.1 r2.2.2
  (r3.2.1, r3.2.2)

/-- Go `medianAdjacentCmpFunc`. -/
def medianAdjCF (data : List α) (a swaps : Nat) : Nat × Nat :=
  medianCF cmp data (a - 1) a (a + 1) swaps

def hintOfSwaps (swaps : Nat) : SortedHint :=
  if swaps = 0 then .increasing else if swaps = 12 then .decreasing else .unknown

/-- Go `choosePivotCmpFunc(data, a, b, cmp)`. -/
def choosePivotCF (data : List α) (a b : Nat) : Nat × SortedHint :=
  let l := b - a
  let i := a + l / 4 * 1
  let j := a + l / 4 * 2
  let k := a + l / 4 * 3
  if 8 ≤ l then
    if 50 ≤ l then
      let ra := medianAdjCF cmp data i 0
      let rb := medianAdjCF cmp data j ra.2
      let rc := medianAdjCF cmp data k rb.2
      let rj := medianCF cmp data ra.1 rb.1 rc.1 rc.2
      (rj.1, hintOfSwaps rj.2)
    else
      let rj := medianCF cmp data i j k 0
      (rj.1, hintOfSwaps rj.2)
  else (j, hintOfSwaps 0)

/-- Advance `i` in `partialInsertionSortCmpFunc` while in order. -/
def pisAdvance (data : List α) (i b : Nat) : Nat :=
  if i < b ∧ ¬cmp (lgetD data i) (lgetD data (i - 1)) < 0 then pisAdvance data (i + 1) b
  else i
termination_by b - i
decreasing_by omega

/-- Shift-the-smaller-left loop of `partialInsertionSortCmpFunc`. -/
def pisShiftLeft (data : List α) (j : Nat) : List α :=
  if 1 ≤ j ∧ cmp (lgetD data j) (lgetD data (j - 1)) < 0 then
    pisShiftLeft (lswap data j (j - 1)) (j - 1)
  else data
termination_by j
decreasing_by omega

/-- Shift-the-greater-right loop of `partialInsertionSortCmpFunc`. -/
def pisShiftRight (data : List α) (j b : Nat) : List α :=
  if j < b ∧ cmp (lgetD data j) (lgetD data (j - 1)) < 0 then
    pisShiftRight (lswap data j (j - 1)) (j + 1) b
  else data
termination_by b - j
decreasing_by omega

/-- The body of one `partialInsertionSortCmpFunc` step after the adjacent
swap at `i1`: shift the smaller element left, the greater right. -/
def pisStep (data : List α) (a i1 b : Nat) : List α :=
  if 2 ≤ b - i1 then
    pisShiftRight cmp
      (if 2 ≤ i1 - a then pisShiftLeft cmp (lswap data i1 (i1 - 1)) (i1 - 1)
       else lswap data i1 (i1 - 1))
      (i1 + 1) b
  else if 2 ≤ i1 - a then pisShiftLeft cmp (lswap data i1 (i1 - 1)) (i1 - 1)
  else lswap data i1 (i1 - 1)

/-- The `maxSteps` loop of `partialInsertionSortCmpFunc`. -/
def pisLoop (data : List α) (a i b steps : Nat) : Bool × List α :=
  match steps with
  | 0 => (false, data)
  | steps + 1 =>
    if pisAdvance cmp data i b = b then (true, data)
    else if b - a < 50 then (false, data)
    else
      pisLoop (pisStep cmp data a (pisAdvance cmp data i b) b) a
        (pisAdvance cmp data i b) b steps

/-- Go `partialInsertionSortCmpFunc(data, a, b, cmp)`. -/
def partialInsertionSortCF (data : List α) (a b : Nat) : Bool × List α :=
  pisLoop cmp data a (a + 1) b 5

/-- Go's seeded xorshift step (`sort.xorshift.Next`), on `uint64`. -/
def xorshiftNext (r : Nat) : Nat :=
  let r1 := (r ^^^ (r <<< 13)) % 2 ^ 64
  let r2 := (r1 ^^^ (r1 >>> 7)) % 2 ^ 64
  (r2 ^^^ (r2 <<< 17)) % 2 ^ 64

/-- Go `bits.Len` on a nonnegative value. -/
def bitsLen (n : Nat) : Nat := if n = 0 then 0 else Nat.log2 n + 1

/-- Go `nextPowerOfTwo`. -/
def nextPow2 (n : Nat) : Nat := 1 <<< bitsLen n

/-- The three scatter swaps of `breakPatternsCmpFunc`. -/
def breakPatternsLoop (data : List α) (a len idx modulus r : Nat) : Nat → List α
  | 0 => data
  | k + 1 =>
    let r1 := xorshiftNext r
    let other0 := r1 &&& (modulus - 1)
    let other := if other0 ≥ len then other0 - len else other0
    breakPatternsLoop (lswap data (idx - 1 + (3 - (k + 1))) (a + other)) a len idx modulus r1 k

/-- Go `breakPatternsCmpFunc(data, a, b, cmp)`. -/
def breakPatternsCF (data : List α) (a b : Nat) : List α :=
  let len := b - a
  if 8 ≤ len then
    let modulus := nextPow2 len
    let idx := a + len / 4 * 2 - 1
    breakPatternsLoop data a len idx modulus len 3
  else data

/-- Advance `i` in `partitionCmpFunc` while `data[i] < data[a]`. -/
def partAdvance (data : List α) (a i j : Nat) : Nat :=
  if i ≤ j ∧ cmp (lgetD data i) (lgetD data a) < 0 then partAdvance data a (i + 1) j
  else i
termination_by j + 1 - i
decreasing_by omega

/-- Retreat `j` in `partitionCmpFunc` while `data[j] >= data[a]`; stops at 0
instead of Go's `-1`, which the algorithm's calls (`i ≥ a+1 ≥ 1`) never hit. -/
def partRetreat (data : List α) (a i j : Nat) : Nat :=
  if i ≤ j ∧ ¬cmp (lgetD data j) (lgetD data a) < 0 then
    if j = 0 then 0 else partRetreat data a i (j - 1)
  else j
termination_by j
decreasing_by omega

theorem partAdvance_ge (data : List α) (a i j : Nat) :
    i ≤ partAdvance cmp data a i j := by
  unfold partAdvance
  split
  · exact Nat.le_of_succ_le (partAdvance_ge data a (i + 1) j)
  · exact Nat.le_refl i
termination_by j + 1 - i
decreasing_by omega

theorem partRetreat_le (data : List α) (a i j : Nat) :
    partRetreat cmp data a i j ≤ j := by
  unfold partRetreat
  split
  · split
    · omega
    · exact Nat.le_trans (partRetreat_le data a i (j - 1)) (by omega)
  · exact Nat.le_refl j
termination_by j
decreasing_by omega

/-- Main swap loop of `partitionCmpFunc` (`i1`, `j1` are the advanced and
retreated cursors of one iteration, written out in full). -/
def partLoop (data : List α) (a i j : Nat) : Nat × List α :=
  if partAdvance cmp data a i j > partRetreat cmp data a (partAdvance cmp data a i j) j then
    (partRetreat cmp data a (partAdvance cmp data a i j) j, data)
  else
    partLoop
      (lswap data (partAdvance cmp data a i j)
        (partRetreat cmp data a (partAdvance cmp data a i j) j))
      a (partAdvance cmp data a i j + 1)
      (partRetreat cmp data a (partAdvance cmp data a i j) j - 1)
termination_by j + 1 - i
decreasing_by
  have h1 := partAdvance_ge cmp data a i j
  have h2 := partRetreat_le cmp data a (partAdvance cmp data a i j) j
  omega

/-- Go `partitionCmpFunc(data, a, b, pivot, cmp)`:
`(newpivot, alreadyPartitioned, data)`. -/
def partitionCF (data0 : List α) (a b pivot : Nat) : Nat × Bool × List α :=
  let data := lswap data0 a pivot
  let i1 := partAdvance cmp data a (a + 1) (b - 1)
  let j1 := partRetreat cmp data a i1 (b - 1)
  if i1 > j1 then (j1, true, lswap data j1 a)
  else
    let r := partLoop cmp (lswap data i1 j1) a (i1 + 1) (j1 - 1)
    (r.1, false, lswap r.2 r.1 a)

/-- Advance `i` in `partitionEqualCmpFunc` while `data[a] >= data[i]`. -/
def peqAdvance (data : List α) (a i j : Nat) : Nat :=
  if i ≤ j ∧ ¬cmp (lgetD data a) (lgetD data i) < 0 then peqAdvance data a (i + 1) j
  else i
termination_by j + 1 - i
decreasing_by omega

/-- Retreat `j` in `partitionEqualCmpFunc` while `data[a] < data[j]`. -/
def peqRetreat (data : List α) (a i j : Nat) : Nat :=
  if i ≤ j ∧ cmp (lgetD data a) (lgetD data j) < 0 then
    if j = 0 then 0 else peqRetreat data a i (j - 1)
  else j
termination_by j
decreasing_by omega

theorem peqAdvance_ge (data : List α) (a i j : Nat) :
    i ≤ peqAdvance cmp data a i j := by
  unfold peqAdvance
  split
  · exact Nat.le_of_succ_le (peqAdvance_ge data a (i + 1) j)
  · exact Nat.le_refl i
termination_by j + 1 - i
decreasing_by omega

theorem peqRetreat_le (data : List α) (a i j : Nat) :
    peqRetreat cmp data a i j ≤ j := by
  unfold peqRetreat
  split
  · split
    · omega
    · exact Nat.le_trans (peqRetreat_le data a i (j - 1)) (by omega)
  · exact Nat.le_refl j
termination_by j
decreasing_by omega

/-- Swap loop of `partitionEqualCmpFunc`; returns Go's `i` (the new pivot). -/
def peqLoop (data : List α) (a i j : Nat) : Nat × List α :=
  if peqAdvance cmp data a i j > peqRetreat cmp data a (peqAdvance cmp data a i j) j then
    (peqAdvance cmp data a i j, data)
  else
    peqLoop
      (lswap data (peqAdvance cmp data a i j)
        (peqRetreat cmp data a (peqAdvance cmp data a i j) j))
      a (peqAdvance cmp data a i j + 1)
      (peqRetreat cmp data a (peqAdvance cmp data a i j) j - 1)
termination_by j + 1 - i
decreasing_by
  have h1 := peqAdvance_ge cmp data a i j
  have h2 := peqRetreat_le cmp data a (peqAdvance cmp data a i j) j
  omega

/-- Go `partitionEqualCmpFunc(data, a, b, pivot, cmp)`. -/
def partitionEqualCF (data0 : List α) (a b pivot : Nat) : Nat × List α :=
  peqLoop cmp (lswap data0 a pivot) a (a + 1) (b - 1)

/-- One pdqsort iteration, step 1: `breakPatterns` when the last partition
was imbalanced. -/
def pdqStep1 (data : List α) (a b : Nat) (wasBalanced : Bool) : List α :=
  if wasBalanced then data else breakPatternsCF data a b

/-- One pdqsort iteration, step 2: choose the pivot; on a decreasing hint
reverse the range and mirror the pivot.  Returns (data, pivot, hint). -/
def pdqStep2 (data1 : List α) (a b : Nat) : List α × Nat × SortedHint :=
  if (choosePivotCF cmp data1 a b).2 = .decreasing then
    (reverseRangeC data1 a b, (b - 1) - ((choosePivotCF cmp data1 a b).1 - a), .increasing)
  else (data1, (choosePivotCF cmp data1 a b).1, (choosePivotCF cmp data1 a b).2)

/-- One pdqsort iteration, step 3: the likely-sorted partial insertion sort. -/
def pdqStep3 (data2 : List α) (a b : Nat) (wasBalanced wasPartitioned : Bool)
    (hint : SortedHint) : Bool × List α :=
  if wasBalanced ∧ wasPartitioned ∧ hint = .increasing then
    partialInsertionSortCF cmp data2 a b
  else (false, data2)

/-- Steps 1-3 of a pdqsort iteration composed; `.1` is the pivot index,
`.2.1` says partialInsertionSort already finished, `.2.2` the data. -/
def pdqPre (data : List α) (a b : Nat) (wasBalanced wasPartitioned : Bool) :
    Nat × Bool × List α :=
  ((pdqStep2 cmp (pdqStep1 data a b wasBalanced) a b).2.1,
   pdqStep3 cmp (pdqStep2 cmp (pdqStep1 data a b wasBalanced) a b).1 a b
     wasBalanced wasPartitioned (pdqStep2 cmp (pdqStep1 data a b wasBalanced) a b).2.2)

/-- Go `pdqsortCmpFunc(data, a, b, limit, cmp)`.  `fuel` bounds the chain of
loop iterations and recursive calls; every such step strictly shrinks `b - a`,
so `length + 16` fuel is never exhausted on the calls the repository makes.
After `partitionCmpFunc` (whose result is `(mid, alreadyPartitioned, data)`)
the shorter side is sorted by a recursive call and the loop continues on the
longer side, with `wasBalanced`/`wasPartitioned` updated. -/
def pdqsortCF (fuel : Nat) (data : List α) (a b limit : Nat)
    (wasBalanced wasPartitioned : Bool) : List α :=
  match fuel with
  | 0 => data
  | fuel + 1 =>
    if b - a ≤ 12 then insertionSortCF cmp data a b
    else if limit = 0 then heapSortCF cmp data a b
    else if (pdqPre cmp data a b wasBalanced wasPartitioned).2.1 then
      (pdqPre cmp data a b wasBalanced wasPartitioned).2.2
    else if 0 < a ∧ ¬cmp (lgetD (pdqPre cmp data a b wasBalanced wasPartitioned).2.2 (a - 1))
        (lgetD (pdqPre cmp data a b wasBalanced wasPartitioned).2.2 (pdqPre cmp data a b wasBalanced wasPartitioned).1) < 0 then
      pdqsortCF fuel
        (partitionEqualCF cmp (pdqPre cmp data a b wasBalanced wasPartitioned).2.2 a b (pdqPre cmp data a b wasBalanced wasPartitioned).1).2
        (partitionEqualCF cmp (pdqPre cmp data a b wasBalanced wasPartitioned).2.2 a b (pdqPre cmp data a b wasBalanced wasPartitioned).1).1
        b (if wasBalanced then limit else limit - 1) wasBalanced wasPartitioned
    else if (partitionCF cmp (pdqPre cmp data a b wasBalanced wasPartitioned).2.2 a b (pdqPre cmp data a b wasBalanced wasPartitioned).1).1 - a < b - (partitionCF cmp (pdqPre cmp data a b wasBalanced wasPartitioned).2.2 a b (pdqPre cmp data a b wasBalanced wasPartitioned).1).1 then
      pdqsortCF fuel
        (pdqsortCF fuel (partitionCF cmp (pdqPre cmp data a b wasBalanced wasPartitioned).2.2 a b (pdqPre cmp data a b wasBalanced wasPartitioned).1).2.2 a (partitionCF cmp (pdqPre cmp data a b wasBalanced wasPartitioned).2.2 a b (pdqPre cmp data a b wasBalanced wasPartitioned).1).1
          (if wasBalanced then limit else limit - 1) true true)
        ((partitionCF cmp (pdqPre cmp data a b wasBalanced wasPartitioned).2.2 a b (pdqPre cmp data a b wasBalanced wasPartitioned).1).1 + 1) b (if wasBalanced then limit else limit - 1)
        (decide (min ((partitionCF cmp (pdqPre cmp data a b wasBalanced wasPartitioned).2.2 a b (pdqPre cmp data a b wasBalanced wasPartitioned).1).1 - a) (b - (partitionCF cmp (pdqPre cmp data a b wasBalanced wasPartitioned).2.2 a b (pdqPre cmp data a b wasBalanced wasPartitioned).1).1) ≥ (b - a) / 8))
        (partitionCF cmp (pdqPre cmp data a b wasBalanced wasPartitioned).2.2 a b (pdqPre cmp data a b wasBalanced wasPartitioned).1).2.1
    else
      pdqsortCF fuel
        (pdqsortCF fuel (partitionCF cmp (pdqPre cmp data a b wasBalanced wasPartitioned).2.2 a b (pdqPre cmp data a b wasBalanced wasPartitioned).1).2.2 ((partitionCF cmp (pdqPre cmp data a b wasBalanced wasPartitioned).2.2 a b (pdqPre cmp data a b wasBalanced wasPartitioned).1).1 + 1) b
          (if wasBalanced then limit else limit - 1) true true)
        a (partitionCF cmp (pdqPre cmp data a b wasBalanced wasPartitioned).2.2 a b (pdqPre cmp data a b wasBalanced wasPartitioned).1).1 (if wasBalanced then limit else limit - 1)
        (decide (min ((partitionCF cmp (pdqPre cmp data a b wasBalanced wasPartitioned).2.2 a b (pdqPre cmp data a b wasBalanced wasPartitioned).1).1 - a) (b - (partitionCF cmp (pdqPre cmp data a b wasBalanced wasPartitioned).2.2 a b (pdqPre cmp data a b wasBalanced wasPartitioned).1).1) ≥ (b - a) / 8))
        (partitionCF cmp (pdqPre cmp data a b wasBalanced wasPartitioned).2.2 a b (pdqPre cmp data a b wasBalanced wasPartitioned).1).2.1

/-- Go `slices.SortFunc(x, cmp)`. -/
def goSortFunc (l : List α) : List α :=
  pdqsortCF cmp (l.length + 16) l 0 l.length (bitsLen l.length) true true

end GoSort

/-! ### The media operations (src/internal/media/media.go)

Each operation takes the filesystem state and returns the final state, the
returned error, the final contents of the caller's `Episodes` slice (which
`slices.SortFunc` sorts in place), and the list of `os.Rename(src, dst)`
calls it issued, in slice order. -/

/-- media.go `YearSep` / epify.go `yearPrefix`. -/
def yearSep : String := " ("

structure ShowT where
  name : String
  year : String
  id : String
  dir : String

structure SeasonT where
  n : String
  showDir : String
  episodes : List String
  matchIndex : Int

structure AdditionT where
  seasonDir : String
  episodes : List String
  matchIndex : Int

structure OpResult where
  fs : FS
  res : Except GoErr Unit
  episodes : List String
  moves : List (String × String)

/-- media.go `MkShow`. -/
def mkShow (s : ShowT) (fs : FS) : FS × Except GoErr Unit :=
  if s.name.length = 0 then (fs, .error .emptyName)
  else match goAtoi s.year with
  | (_, false) => (fs, .error (.invalidYear s.year))
  | (year, true) =>
    match goAtoi s.id with
    | (_, false) => (fs, .error (.invalidID s.id))
    | (tvdbid, true) =>
      let path := s.name ++ " (" ++ toString year ++ ") [tvdbid-" ++ toString tvdbid ++ "]"
      match mkdirAllFS fs (goJoin s.dir path) with
      | .error e => (fs, .error e)
      | .ok fs1 => (fs1, .ok ())

/-- The sort key of `sortEpisodes`'s comparison function:
`strconv.Atoi(re.FindAllString(filepath.Base(e), -1)[i])`, error ignored. -/
def epKey (i : Int) (e : String) : Int :=
  atoiVal ((digitRuns (goBase e)).getD i.toNat "")

def epCmp (i : Int) (a b : String) : Int := intCompare (epKey i a) (epKey i b)

/-- The validation loop at the top of media.go `sortEpisodes`. -/
def validateRuns (i : Int) : List String → Except GoErr Unit
  | [] => .ok ()
  | e :: rest =>
    let m := digitRuns (goBase e)
    if m.length = 0 then .error (.mustContainNumber e)
    else if i < 0 ∨ (m.length : Int) ≤ i then .error (.invalidMatchIndex i)
    else validateRuns i rest

/-- media.go `sortEpisodes(eps, i)`: validate every name, then sort in place
with `slices.SortFunc`; returns the sorted slice contents. -/
def sortEpisodes (eps : List String) (i : Int) : Except GoErr (List String) :=
  match validateRuns i eps with
  | .error e => .error e
  | .ok _ => .ok (goSortFunc (epCmp i) eps)

/-- The per-episode `os.Stat` loop shared by `MkSeason` and `AddEpisodes`. -/
def statEpisodes (fs : FS) : List String → Except GoErr Unit
  | [] => .ok ()
  | e :: rest =>
    match statFS fs e with
    | none => .error (.invalidEpisodeStat e)
    | some true => .error (.episodeIsDirectory e)
    | some false => statEpisodes fs rest

/-- The errgroup rename fan-out: every rename is attempted (moves target
disjoint paths, so the concurrent execution equals this sequential one) and
the first error in slice order is the one `g.Wait()` reports. -/
def renameAll (fs : FS) : List (String × String) → FS × Option GoErr
  | [] => (fs, none)
  | (src, dst) :: rest =>
    match renameFS fs src dst with
    | .ok fs1 => renameAll fs1 rest
    | .error er =>
      let r := renameAll fs rest
      (r.1, some er)

/-- `fmt.Sprintf("%s S%02dE%02d%s", show, n, k, ext)`. -/
def epName (showName : String) (n k : Int) (ext : String) : String :=
  showName ++ " S" ++ fmt02d n ++ "E" ++ fmt02d k ++ ext

/-- The renames `MkSeason` issues: episode `i` (0-based, sorted order) is
named with number `i+1`. -/
def mkSeasonMoves (seasonDir showName : String) (n : Int) (sorted : List String) :
    List (String × String) :=
  sorted.enum.map
    (fun p => (p.2, goJoin seasonDir (epName showName n ((p.1 : Int) + 1) (goExt p.2))))

/-- The tail of `MkSeason` after all validation passed: create the season
directory and fan out the renames. -/
def mkSeasonFinish (showDir showName : String) (n : Int) (sorted : List String)
    (fs : FS) : OpResult :=
  match mkdirFS fs (goJoin showDir ("Season " ++ fmt02d n)) with
  | .error e => ⟨fs, .error e, sorted, []⟩
  | .ok fs1 =>
    let r := renameAll fs1 (mkSeasonMoves (goJoin showDir ("Season " ++ fmt02d n)) showName n sorted)
    ⟨r.1, match r.2 with | none => .ok () | some e => .error e, sorted,
      mkSeasonMoves (goJoin showDir ("Season " ++ fmt02d n)) showName n sorted⟩

/-- media.go `MkSeason`. -/
def mkSeason (s : SeasonT) (fs : FS) : OpResult :=
  match goAtoi s.n with
  | (_, false) => ⟨fs, .error (.invalidSeason s.n), s.episodes, []⟩
  | (n, true) =>
    match statFS fs s.showDir with
    | none => ⟨fs, .error (.invalidDirectory s.showDir), s.episodes, []⟩
    | some false => ⟨fs, .error (.notADirectory s.showDir), s.episodes, []⟩
    | some true =>
      match goCut (goBase s.showDir) yearSep with
      | (_, _, false) => ⟨fs, .error (.invalidShowDirectory s.showDir), s.episodes, []⟩
      | (showName, _, true) =>
        if s.episodes.isEmpty then ⟨fs, .error .noEpisodesFound, s.episodes, []⟩
        else match statEpisodes fs s.episodes with
        | .error e => ⟨fs, .error e, s.episodes, []⟩
        | .ok _ =>
          match sortEpisodes s.episodes s.matchIndex with
          | .error e => ⟨fs, .error e, s.episodes, []⟩
          | .ok sorted => mkSeasonFinish s.showDir showName n sorted fs

/-- media.go's parse of the last directory entry in `AddEpisodes`:
`episodeRe.FindStringSubmatch` and `strconv.Atoi` with the error discarded
(so an out-of-range digit run yields the clamped int64 value). -/
def mediaLastEpisodeNumber (prevEp : String) : Except GoErr Int :=
  match findEpisodeDigits prevEp with
  | none => .error (.invalidEpisodeEntry prevEp)
  | some ds => .ok (atoiVal ds)

/-- The renames of `AddEpisodes`: episode `i` (0-based, in sorted order) gets
number `epn+i+1`, a Go `int` addition, hence the int64 wrap. -/
def additionMoves (seasonDir showName : String) (n epn : Int) (sorted : List String) :
    List (String × String) :=
  sorted.enum.map
    (fun p => (p.2, goJoin seasonDir (epName showName n (wrap64 (epn + (p.1 : Int) + 1)) (goExt p.2))))

/-- The tail of `AddEpisodes` after validation and offset computation. -/
def addFinish (seasonDir showName : String) (n epn : Int) (sorted : List String)
    (fs : FS) : OpResult :=
  let r := renameAll fs (additionMoves seasonDir showName n epn sorted)
  ⟨r.1, match r.2 with | none => .ok () | some e => .error e, sorted,
    additionMoves seasonDir showName n epn sorted⟩

/-- media.go `AddEpisodes`. -/
def addEpisodes (a : AdditionT) (fs : FS) : OpResult :=
  match statFS fs a.seasonDir with
  | none => ⟨fs, .error (.invalidSeasonDirectory a.seasonDir), a.episodes, []⟩
  | some false => ⟨fs, .error (.notADirectory a.seasonDir), a.episodes, []⟩
  | some true =>
    let base := goBase a.seasonDir
    let season := if isPre "Season ".data base.data then String.mk (base.data.drop 7) else base
    if base = season then ⟨fs, .error (.invalidSeasonDirectory a.seasonDir), a.episodes, []⟩
    else match goAtoi season with
    | (_, false) => ⟨fs, .error (.invalidSeason season), a.episodes, []⟩
    | (n, true) =>
      let showDir := goDir a.seasonDir
      match goCut (goBase showDir) yearSep with
      | (_, _, false) => ⟨fs, .error (.invalidShowDirectory showDir), a.episodes, []⟩
      | (showName, _, true) =>
        if a.episodes.isEmpty then ⟨fs, .error .noEpisodesFound, a.episodes, []⟩
        else match statEpisodes fs a.episodes with
        | .error e => ⟨fs, .error e, a.episodes, []⟩
        | .ok _ =>
          match sortEpisodes a.episodes a.matchIndex with
          | .error e => ⟨fs, .error e, a.episodes, []⟩
          | .ok sorted =>
            match (readDirFS fs a.seasonDir).getLast? with
            | none => addFinish a.seasonDir showName n 0 sorted fs
            | some prevEp =>
              match mediaLastEpisodeNumber prevEp with
              | .error e => ⟨fs, .error e, sorted, []⟩
              | .ok epn => addFinish a.seasonDir showName n epn sorted fs

/-! ### epify.go's older `AddEpisodes` offset parse (strings.Index based) -/

/-- epify.go `AddEpisodes` lines 355-366: first `"E"`, first `"."`, the text
between them must `strconv.Atoi`-parse, else `invalid episode number`. -/
def epifyLastEpisodeNumber (prevEp : String) : Except GoErr Int :=
  let i := goIndex prevEp "E"
  let j := goIndex prevEp "."
  if i = -1 ∨ j = -1 ∨ i ≥ j then .error (.invalidEpisodeEntry prevEp)
  else match goAtoi ⟨(prevEp.data.take j.toNat).drop (i.toNat + 1)⟩ with
    | (_, false) => .error (.invalidEpisodeNumber prevEp)
    | (n, true) => .ok n

/-! ### The torrent-completion integration (src/trdone/main.go) -/

/-- The show-directory scan: first directory entry whose name cuts at `" ("`
and whose show-name prefix is contained in the torrent name. -/
def trdonePickShow (trName : String) : List (String × Bool) → Option String
  | [] => none
  | (name, isd) :: rest =>
    if isd then
      match goCut name yearSep with
      | (showName, _, true) =>
        if containsSub trName showName then some name else trdonePickShow trName rest
      | (_, _, false) => trdonePickShow trName rest
    else trdonePickShow trName rest

/-- The season-directory scan: track the largest season number (starting at
`0`), keeping the first entry of each new maximum; a `"Season "` entry whose
remainder does not parse aborts. -/
def trdonePickSeason : List (String × Bool) → Int → Option String → Except GoErr (Option String)
  | [], _, acc => .ok acc
  | (name, isd) :: rest, largest, acc =>
    if isd then
      let season := if isPre "Season ".data name.data then String.mk (name.data.drop 7) else name
      if name = season then trdonePickSeason rest largest acc
      else match goAtoi season with
      | (_, false) => .error (.invalidSeason season)
      | (n, true) =>
        if n > largest then trdonePickSeason rest n (some name)
        else trdonePickSeason rest largest acc
    else trdonePickSeason rest largest acc

/-- trdone `main` after flag/env handling: resolve the show directory by
substring containment, the season directory by numerically largest season,
then delegate the single file to `AddEpisodes` (match index 0). -/
def trdoneRun (dir trDir trName : String) (fs : FS) : OpResult :=
  match statFS fs dir with
  | none => ⟨fs, .error (.invalidDirectory dir), [], []⟩
  | some false => ⟨fs, .error (.notADirectory dir), [], []⟩
  | some true =>
    let ents := readDirEntsFS fs dir
    if ents.isEmpty then ⟨fs, .error (.dirEmpty dir), [], []⟩
    else match trdonePickShow trName ents with
    | none => ⟨fs, .error (.noShowDirectory trName), [], []⟩
    | some name =>
      let showDir := goJoin dir name
      let ents2 := readDirEntsFS fs showDir
      if ents2.isEmpty then ⟨fs, .error (.dirEmpty showDir), [], []⟩
      else match trdonePickSeason ents2 0 none with
      | .error e => ⟨fs, .error e, [], []⟩
      | .ok none => ⟨fs, .error (.noSeasonDirectory showDir), [], []⟩
      | .ok (some sname) =>
        addEpisodes ⟨goJoin showDir sname, [goJoin trDir trName], 0⟩ fs

/-- A directory entry name of the form `"Season <m>"` as trdone's scan reads
it: the `"Season "` prefix is present and the remainder Atoi-parses to `m`. -/
def seasonShaped (name : String) (m : Int) : Prop :=
  isPre "Season ".data name.data = true ∧ goAtoi ⟨name.data.drop 7⟩ = (m, true)

/-! ### The sort permutes its input

All data movement in the ported sort is `lswap`, so every routine returns a
permutation of its input; in particular the sorted slice has the same length
and the same members as the caller's batch. -/

theorem getD_set_perm [Inhabited α] (xs : List α) (k : Nat) (x : α) (h : k < xs.length) :
    ((xs.getD k default) :: xs.set k x).Perm (x :: xs) := by
  induction xs generalizing k with
  | nil => simp at h
  | cons z t ih =>
    cases k with
    | zero => simpa using List.Perm.swap x z t
    | succ m =>
      have hm : m < t.length := by simpa using h
      exact (List.Perm.swap z (t.getD m default) (t.set m x)).trans
        (((ih m hm).cons z).trans (List.Perm.swap x z t))

theorem lswap_perm [Inhabited α] (l : List α) (i j : Nat) : (lswap l i j).Perm l := by
  unfold lswap
  split
  · next h =>
    induction l generalizing i j with
    | nil => simp at h
    | cons x xs ih =>
      cases i with
      | zero =>
        cases j with
        | zero => simp [lgetD]
        | succ m =>
          have hm : m < xs.length := by simpa using h.2
          simpa [lgetD] using getD_set_perm xs m x hm
      | succ k =>
        cases j with
        | zero =>
          have hk : k < xs.length := by simpa using h.1
          simpa [lgetD] using getD_set_perm xs k x hk
        | succ m =>
          have hk : k < xs.length := by simpa using h.1
          have hm : m < xs.length := by simpa using h.2
          have := ih k m ⟨hk, hm⟩
          simpa [lgetD] using this.cons x
  · exact List.Perm.refl l

theorem lswap_length [Inhabited α] (l : List α) (i j : Nat) :
    (lswap l i j).length = l.length := (lswap_perm l i j).length_eq

section GoSortPerm

variable {α : Type} [Inhabited α] (cmp : α → α → Int)

theorem sinkCF_perm (data : List α) (a j : Nat) : (sinkCF cmp data a j).Perm data := by
  unfold sinkCF
  split
  · exact (sinkCF_perm (lswap data j (j - 1)) a (j - 1)).trans (lswap_perm _ _ _)
  · exact List.Perm.refl data
termination_by j
decreasing_by omega

theorem insCFAux_perm (data : List α) (a i b : Nat) : (insCFAux cmp data a i b).Perm data := by
  unfold insCFAux
  split
  · exact (insCFAux_perm (sinkCF cmp data a i) a (i + 1) b).trans (sinkCF_perm cmp data a i)
  · exact List.Perm.refl data
termination_by b - i
decreasing_by omega

theorem insertionSortCF_perm (data : List α) (a b : Nat) :
    (insertionSortCF cmp data a b).Perm data := insCFAux_perm cmp data a (a + 1) b

theorem siftDownCF_perm (data : List α) (root hi first : Nat) :
    (siftDownCF cmp data root hi first).Perm data := by
  unfold siftDownCF
  split
  · dsimp only
    split
    · split
      · exact (siftDownCF_perm _ _ _ _).trans (lswap_perm _ _ _)
      · exact List.Perm.refl data
    · split
      · exact (siftDownCF_perm _ _ _ _).trans (lswap_perm _ _ _)
      · exact List.Perm.refl data
  · exact List.Perm.refl data
termination_by hi - root
decreasing_by
  all_goals omega

theorem heapBuildCF_perm (data : List α) (k hi first : Nat) :
    (heapBuildCF cmp data k hi first).Perm data := by
  induction k generalizing data with
  | zero => exact List.Perm.refl data
  | succ k ih => exact (ih _).trans (siftDownCF_perm cmp data k hi first)

theorem heapPopCF_perm (data : List α) (k first : Nat) :
    (heapPopCF cmp data k first).Perm data := by
  induction k generalizing data with
  | zero => exact List.Perm.refl data
  | succ k ih =>
    exact (ih _).trans ((siftDownCF_perm cmp _ 0 k first).trans (lswap_perm _ _ _))

theorem heapSortCF_perm (data : List α) (a b : Nat) :
    (heapSortCF cmp data a b).Perm data := by
  unfold heapSortCF
  exact (heapPopCF_perm cmp _ _ _).trans (heapBuildCF_perm cmp data _ _ _)

theorem reverseRangeCF_perm (data : List α) (i j : Nat) :
    (reverseRangeCF data i j).Perm data := by
  unfold reverseRangeCF
  split
  · exact (reverseRangeCF_perm _ _ _).trans (lswap_perm _ _ _)
  · exact List.Perm.refl data
termination_by j - i
decreasing_by omega

theorem reverseRangeC_perm (data : List α) (a b : Nat) :
    (reverseRangeC data a b).Perm data := reverseRangeCF_perm data a (b - 1)

theorem pisShiftLeft_perm (data : List α) (j : Nat) :
    (pisShiftLeft cmp data j).Perm data := by
  unfold pisShiftLeft
  split
  · exact (pisShiftLeft_perm _ _).trans (lswap_perm _ _ _)
  · exact List.Perm.refl data
termination_by j
decreasing_by omega

theorem pisShiftRight_perm (data : List α) (j b : Nat) :
    (pisShiftRight cmp data j b).Perm data := by
  unfold pisShiftRight
  split
  · exact (pisShiftRight_perm _ _ _).trans (lswap_perm _ _ _)
  · exact List.Perm.refl data
termination_by b - j
decreasing_by omega

theorem pisStep_perm (data : List α) (a i1 b : Nat) :
    (pisStep cmp data a i1 b).Perm data := by
  unfold pisStep
  split
  · split
    · exact (pisShiftRight_perm cmp _ _ _).trans
        ((pisShiftLeft_perm cmp _ _).trans (lswap_perm _ _ _))
    · exact (pisShiftRight_perm cmp _ _ _).trans (lswap_perm _ _ _)
  · split
    · exact (pisShiftLeft_perm cmp _ _).trans (lswap_perm _ _ _)
    · exact lswap_perm _ _ _

theorem pisLoop_perm (data : List α) (a i b steps : Nat) :
    (pisLoop cmp data a i b steps).2.Perm data := by
  induction steps generalizing data i with
  | zero => exact List.Perm.refl data
  | succ steps ih =>
    unfold pisLoop
    split
    · exact List.Perm.refl data
    · split
      · exact List.Perm.refl data
      · exact (ih _ _).trans (pisStep_perm cmp data a _ b)

theorem partialInsertionSortCF_perm (data : List α) (a b : Nat) :
    (partialInsertionSortCF cmp data a b).2.Perm data := pisLoop_perm cmp data a (a + 1) b 5

theorem breakPatternsLoop_perm (data : List α) (a len idx modulus r k : Nat) :
    (breakPatternsLoop data a len idx modulus r k).Perm data := by
  induction k generalizing data r with
  | zero => exact List.Perm.refl data
  | succ k ih => exact (ih _ _).trans (lswap_perm _ _ _)

theorem breakPatternsCF_perm (data : List α) (a b : Nat) :
    (breakPatternsCF data a b).Perm data := by
  unfold breakPatternsCF
  dsimp only
  split
  · exact breakPatternsLoop_perm _ _ _ _ _ _ _
  · exact List.Perm.refl data

theorem partLoop_perm (data : List α) (a i j : Nat) :
    (partLoop cmp data a i j).2.Perm data := by
  unfold partLoop
  split
  · exact List.Perm.refl data
  · exact (partLoop_perm _ _ _ _).trans (lswap_perm _ _ _)
termination_by j + 1 - i
decreasing_by
  have h1 := partAdvance_ge cmp data a i j
  have h2 := partRetreat_le cmp data a (partAdvance cmp data a i j) j
  omega

theorem partitionCF_perm (data0 : List α) (a b pivot : Nat) :
    (partitionCF cmp data0 a b pivot).2.2.Perm data0 := by
  unfold partitionCF
  dsimp only
  split
  · exact (lswap_perm _ _ _).trans (lswap_perm _ _ _)
  · exact ((lswap_perm _ _ _).trans
      ((partLoop_perm cmp _ _ _ _).trans ((lswap_perm _ _ _).trans (lswap_perm _ _ _))))

theorem peqLoop_perm (data : List α) (a i j : Nat) :
    (peqLoop cmp data a i j).2.Perm data := by
  unfold peqLoop
  split
  · exact List.Perm.refl data
  · exact (peqLoop_perm _ _ _ _).trans (lswap_perm _ _ _)
termination_by j + 1 - i
decreasing_by
  have h1 := peqAdvance_ge cmp data a i j
  have h2 := peqRetreat_le cmp data a (peqAdvance cmp data a i j) j
  omega

theorem partitionEqualCF_perm (data0 : List α) (a b pivot : Nat) :
    (partitionEqualCF cmp data0 a b pivot).2.Perm data0 := by
  unfold partitionEqualCF
  exact (peqLoop_perm cmp _ _ _ _).trans (lswap_perm _ _ _)

theorem pdqStep1_perm (data : List α) (a b : Nat) (wb : Bool) :
    (pdqStep1 data a b wb).Perm data := by
  unfold pdqStep1
  split
  · exact List.Perm.refl data
  · exact breakPatternsCF_perm data a b

theorem pdqStep2_perm (data1 : List α) (a b : Nat) :
    (pdqStep2 cmp data1 a b).1.Perm data1 := by
  unfold pdqStep2
  split
  · exact reverseRangeC_perm data1 a b
  · exact List.Perm.refl data1

theorem pdqStep3_perm (data2 : List α) (a b : Nat) (wb wp : Bool) (hint : SortedHint) :
    (pdqStep3 cmp data2 a b wb wp hint).2.Perm data2 := by
  unfold pdqStep3
  split
  · exact partialInsertionSortCF_perm cmp data2 a b
  · exact List.Perm.refl data2

theorem pdqPre_perm (data : List α) (a b : Nat) (wb wp : Bool) :
    (pdqPre cmp data a b wb wp).2.2.Perm data := by
  unfold pdqPre
  exact (pdqStep3_perm cmp _ a b wb wp _).trans
    ((pdqStep2_perm cmp _ a b).trans (pdqStep1_perm data a b wb))

theorem pdqsortCF_perm (fuel : Nat) (data : List α) (a b limit : Nat)
    (wb wp : Bool) : (pdqsortCF cmp fuel data a b limit wb wp).Perm data := by
  induction fuel generalizing data a b limit wb wp with
  | zero => exact List.Perm.refl data
  | succ fuel ih =>
    unfold pdqsortCF
    split
    · exact insertionSortCF_perm cmp data a b
    · split
      · exact heapSortCF_perm cmp data a b
      · split
        · exact pdqPre_perm cmp data a b wb wp
        · split
          · exact (ih _ _ _ _ _ _).trans
              ((partitionEqualCF_perm cmp _ a b _).trans (pdqPre_perm cmp data a b wb wp))
          · split
            · exact (ih _ _ _ _ _ _).trans ((ih _ _ _ _ _ _).trans
                ((partitionCF_perm cmp _ a b _).trans (pdqPre_perm cmp data a b wb wp)))
            · exact (ih _ _ _ _ _ _).trans ((ih _ _ _ _ _ _).trans
                ((partitionCF_perm cmp _ a b _).trans (pdqPre_perm cmp data a b wb wp)))

theorem goSortFunc_perm (l : List α) : (goSortFunc cmp l).Perm l :=
  pdqsortCF_perm cmp (l.length + 16) l 0 l.length (bitsLen l.length) true true

theorem goSortFunc_length (l : List α) : (goSortFunc cmp l).length = l.length :=
  (goSortFunc_perm cmp l).length_eq

end GoSortPerm

/-! ### Functional description of the insertion sort on short inputs

For `n ≤ 12` elements, `pdqsortCmpFunc` is exactly `insertionSortCmpFunc`,
which we show equal to the textbook left-insertion sort `goInsList` below
(the comparison is by an integer key, as in `sortEpisodes`): sorted output,
a permutation, and ties kept in input order. -/

/-- The comparison function `sortEpisodes` builds from a key. -/
def kcmp (key : α → Int) (a b : α) : Int := intCompare (key a) (key b)

theorem intCompare_lt_iff (a b : Int) : intCompare a b < 0 ↔ a < b := by
  unfold intCompare
  split
  · simp_all
  · split
    · omega
    · omega

/-- Insert `x` into `P` before the first strictly greater element: for a
sorted prefix this is exactly where the swap loop of the imperative insertion
sort deposits `data[j]`. -/
def insL (key : α → Int) (x : α) : List α → List α
  | [] => [x]
  | y :: ys => if key x < key y then x :: y :: ys else y :: insL key x ys

/-- Fold of `insL` over the remaining elements, seeded with a sorted prefix. -/
def insFold (key : α → Int) (P rest : List α) : List α :=
  rest.foldl (fun acc x => insL key x acc) P

/-- Left-insertion sort. -/
def goInsList (key : α → Int) : List α → List α
  | [] => []
  | x :: xs => insFold key [x] xs

section InsLTheory

variable {α : Type} (key : α → Int)

theorem insL_perm (x : α) (P : List α) : (insL key x P).Perm (x :: P) := by
  induction P with
  | nil => exact List.Perm.refl _
  | cons y ys ih =>
    unfold insL
    split
    · exact List.Perm.refl _
    · exact (ih.cons y).trans (List.Perm.swap x y ys)

theorem insL_of_all_le (x : α) (P : List α) (h : ∀ p ∈ P, key p ≤ key x) :
    insL key x P = P ++ [x] := by
  induction P with
  | nil => rfl
  | cons y ys ih =>
    unfold insL
    have hy : key y ≤ key x := h y (List.mem_cons_self y ys)
    rw [if_neg (by omega)]
    rw [ih (fun p hp => h p (List.mem_cons_of_mem y hp))]
    simp

theorem insL_append_last_lt (x y : α) (P : List α) (h : key x < key y) :
    insL key x (P ++ [y]) = insL key x P ++ [y] := by
  induction P with
  | nil => simp [insL, h]
  | cons z zs ih =>
    simp only [List.cons_append, insL]
    split
    · rfl
    · rw [show zs.append [y] = zs ++ [y] from rfl, ih]
      simp

theorem insL_sorted (x : α) (P : List α)
    (h : P.Pairwise (fun a b => key a ≤ key b)) :
    (insL key x P).Pairwise (fun a b => key a ≤ key b) := by
  induction P with
  | nil => simp [insL]
  | cons y ys ih =>
    rcases List.pairwise_cons.mp h with ⟨hy, hys⟩
    unfold insL
    split
    · next hlt =>
      refine List.pairwise_cons.mpr ⟨?_, h⟩
      intro b hb
      rcases List.mem_cons.mp hb with rfl | hb
      · omega
      · exact le_trans (le_of_lt hlt) (hy b hb)
    · next hge =>
      refine List.pairwise_cons.mpr ⟨?_, ih hys⟩
      intro b hb
      have := (insL_perm key x ys).mem_iff.mp hb
      rcases List.mem_cons.mp this with rfl | hb2
      · omega
      · exact hy b hb2

theorem insL_filter_ne (x : α) (P : List α) (k : Int) (h : key x ≠ k) :
    (insL key x P).filter (fun e => key e = k) = P.filter (fun e => key e = k) := by
  induction P with
  | nil => simp [insL, List.filter, h]
  | cons y ys ih =>
    unfold insL
    split
    · simp [List.filter_cons, h]
    · simp [List.filter_cons, ih]

theorem insL_filter_eq (x : α) (P : List α)
    (hs : P.Pairwise (fun a b => key a ≤ key b)) :
    (insL key x P).filter (fun e => key e = key x) =
      P.filter (fun e => key e = key x) ++ [x] := by
  induction P with
  | nil => simp [insL, List.filter]
  | cons y ys ih =>
    rcases List.pairwise_cons.mp hs with ⟨hy, hys⟩
    unfold insL
    split
    · next hlt =>
      have hyne : key y ≠ key x := by omega
      have hall : ys.filter (fun e => key e = key x) = [] := by
        refine List.filter_eq_nil.mpr ?_
        intro b hb
        have := hy b hb
        simp only [decide_eq_true_eq]
        omega
      simp [List.filter, hyne, hall, Ne.symm hyne]
    · next hge =>
      by_cases hy2 : key y = key x
      · simp [List.filter, hy2, ih hys]
      · simp [List.filter, hy2, ih hys]

theorem insFold_perm (P rest : List α) : (insFold key P rest).Perm (P ++ rest) := by
  induction rest generalizing P with
  | nil => simp [insFold]
  | cons x xs ih =>
    have h1 : (insFold key (insL key x P) xs).Perm ((insL key x P) ++ xs) := ih _
    refine List.Perm.trans h1 ?_
    have h2 : (insL key x P ++ xs).Perm ((x :: P) ++ xs) :=
      (insL_perm key x P).append_right xs
    refine h2.trans ?_
    simpa using List.perm_middle.symm

theorem insFold_sorted (P rest : List α)
    (h : P.Pairwise (fun a b => key a ≤ key b)) :
    (insFold key P rest).Pairwise (fun a b => key a ≤ key b) := by
  induction rest generalizing P with
  | nil => simpa [insFold] using h
  | cons x xs ih => exact ih _ (insL_sorted key x P h)

theorem insFold_filter (P rest : List α) (k : Int)
    (h : P.Pairwise (fun a b => key a ≤ key b)) :
    (insFold key P rest).filter (fun e => key e = k) =
      P.filter (fun e => key e = k) ++ rest.filter (fun e => key e = k) := by
  induction rest generalizing P with
  | nil => simp [insFold]
  | cons x xs ih =>
    have step := ih (insL key x P) (insL_sorted key x P h)
    by_cases hx : key x = k
    · subst hx
      rw [show insFold key P (x :: xs) = insFold key (insL key x P) xs from rfl, step,
        insL_filter_eq key x P h]
      simp [List.filter]
    · rw [show insFold key P (x :: xs) = insFold key (insL key x P) xs from rfl, step,
        insL_filter_ne key x P k hx]
      simp [List.filter, hx]

theorem goInsList_perm (l : List α) : (goInsList key l).Perm l := by
  cases l with
  | nil => exact List.Perm.refl _
  | cons x xs => simpa using insFold_perm key [x] xs

theorem goInsList_sorted (l : List α) :
    (goInsList key l).Pairwise (fun a b => key a ≤ key b) := by
  cases l with
  | nil => simp [goInsList]
  | cons x xs => exact insFold_sorted key [x] xs (by simp)

theorem goInsList_filter (l : List α) (k : Int) :
    (goInsList key l).filter (fun e => key e = k) = l.filter (fun e => key e = k) := by
  cases l with
  | nil => rfl
  | cons x xs =>
    have h2 := insFold_filter key [x] xs k (by simp)
    by_cases hx : key x = k
    · simpa [goInsList, List.filter_cons, hx] using h2
    · simpa [goInsList, List.filter_cons, hx] using h2

end InsLTheory

/-! ### The imperative insertion sort equals `goInsList` on a full range -/

theorem lgetD_cons_succ [Inhabited α] (x : α) (l : List α) (n : Nat) :
    lgetD (x :: l) (n + 1) = lgetD l n := by
  simp [lgetD]

theorem drop_eq_getD_cons [Inhabited α] :
    ∀ (l : List α) (j : Nat), j < l.length → l.drop j = lgetD l j :: l.drop (j + 1)
  | [], j, h => by simp at h
  | x :: t, 0, _ => by simp [lgetD]
  | x :: t, j + 1, h => by
    have ht : j < t.length := by simpa using h
    simpa [lgetD_cons_succ] using drop_eq_getD_cons t j ht

theorem take_snoc [Inhabited α] :
    ∀ (l : List α) (j : Nat), j < l.length → l.take (j + 1) = l.take j ++ [lgetD l j]
  | [], j, h => by simp at h
  | x :: t, 0, _ => by simp [lgetD]
  | x :: t, j + 1, h => by
    have ht : j < t.length := by simpa using h
    rw [show (j + 1 + 1) = (j + 1) + 1 from rfl]
    simp only [List.take_succ_cons, lgetD_cons_succ, List.cons_append]
    rw [take_snoc t j ht]

theorem take_getD_drop [Inhabited α] (l : List α) (j : Nat) (h : j < l.length) :
    l = l.take j ++ lgetD l j :: l.drop (j + 1) := by
  conv_lhs => rw [(l.take_append_drop j).symm]
  rw [drop_eq_getD_cons l j h]

theorem append_getD [Inhabited α] :
    ∀ (A : List α) (x : α) (B : List α), lgetD (A ++ x :: B) A.length = x
  | [], x, B => by simp [lgetD]
  | a :: A, x, B => by simpa [lgetD_cons_succ] using append_getD A x B

theorem append_drop_succ [Inhabited α] :
    ∀ (A : List α) (x : α) (B : List α), (A ++ x :: B).drop (A.length + 1) = B
  | [], x, B => by simp
  | a :: A, x, B => by simpa using append_drop_succ A x B

theorem lswap_cons [Inhabited α] (x : α) (l : List α) (i j : Nat) :
    lswap (x :: l) (i + 1) (j + 1) = x :: lswap l i j := by
  unfold lswap
  by_cases h : i < l.length ∧ j < l.length
  · rw [if_pos (by simpa using And.intro (Nat.succ_lt_succ h.1) (Nat.succ_lt_succ h.2)),
      if_pos h]
    simp [lgetD, List.set]
  · rw [if_neg (by simpa [Nat.succ_lt_succ_iff] using h), if_neg h]

theorem lswap_adj [Inhabited α] (j : Nat) (l : List α) (h1 : 1 ≤ j) (h2 : j < l.length) :
    lswap l j (j - 1) =
      l.take (j - 1) ++ lgetD l j :: lgetD l (j - 1) :: l.drop (j + 1) := by
  cases j with
  | zero => omega
  | succ k =>
    cases k with
    | zero =>
      cases l with
      | nil => simp at h2
      | cons x t =>
        cases t with
        | nil => simp at h2
        | cons y t2 => simp [lswap, lgetD, List.set]
    | succ k2 =>
      cases l with
      | nil => simp at h2
      | cons x rest =>
        have hr : k2 + 1 < rest.length := by simpa using h2
        rw [show k2 + 1 + 1 = (k2 + 1) + 1 from rfl, show (k2 + 1 + 1) - 1 = k2 + 1 from rfl,
          show k2 + 1 = k2 + 1 from rfl, lswap_cons]
        have hrec := lswap_adj (k2 + 1) rest (by omega) hr
        rw [show (k2 + 1) - 1 = k2 from rfl] at hrec
        rw [hrec]
        simp [lgetD_cons_succ]
termination_by j

theorem take_left_of_len {α : Type} (A B : List α) (n : Nat) (h : n = A.length) :
    (A ++ B).take n = A := by
  subst h
  exact List.take_left A B

theorem drop_left_of_len {α : Type} (A B : List α) (n : Nat) (h : n = A.length) :
    (A ++ B).drop n = B := by
  subst h
  exact List.drop_left A B

theorem append_getD_of_len {α : Type} [Inhabited α] (A : List α) (x : α) (B : List α)
    (n : Nat) (h : n = A.length) : lgetD (A ++ x :: B) n = x := by
  subst h
  exact append_getD A x B

theorem append_drop_succ_of_len {α : Type} [Inhabited α] (A : List α) (x : α)
    (B : List α) (n : Nat) (h : n = A.length + 1) : (A ++ x :: B).drop n = B := by
  subst h
  exact append_drop_succ A x B

theorem length_insL {α : Type} (key : α → Int) (x : α) (P : List α) :
    (insL key x P).length = P.length + 1 := by
  simpa using (insL_perm key x P).length_eq

theorem sinkCF_sim {α : Type} [Inhabited α] (key : α → Int) (data : List α) (j : Nat)
    (hj : j < data.length)
    (hs : (data.take j).Pairwise (fun a b => key a ≤ key b)) :
    sinkCF (kcmp key) data 0 j =
      insL key (lgetD data j) (data.take j) ++ data.drop (j + 1) := by
  unfold sinkCF
  split
  · next hcond =>
    have h1 : 1 ≤ j := hcond.1
    have hlt : key (lgetD data j) < key (lgetD data (j - 1)) :=
      (intCompare_lt_iff _ _).mp hcond.2
    have hadj := lswap_adj j data h1 hj
    have hTlen : (data.take (j - 1)).length = j - 1 := by
      simp [List.length_take]
      omega
    -- facts about the swapped list
    have hlen2 : (lswap data j (j - 1)).length = data.length := lswap_length data j (j - 1)
    have hjm : j - 1 < (lswap data j (j - 1)).length := by omega
    have htake : (lswap data j (j - 1)).take (j - 1) = data.take (j - 1) := by
      rw [hadj]
      exact take_left_of_len _ _ _ hTlen.symm
    have hget : lgetD (lswap data j (j - 1)) (j - 1) = lgetD data j := by
      rw [hadj]
      exact append_getD_of_len _ _ _ _ hTlen.symm
    have hdrop : (lswap data j (j - 1)).drop ((j - 1) + 1) =
        lgetD data (j - 1) :: data.drop (j + 1) := by
      rw [hadj]
      exact append_drop_succ_of_len _ _ _ _ (by rw [hTlen])
    have hsnoc : data.take j = data.take (j - 1) ++ [lgetD data (j - 1)] := by
      have := take_snoc data (j - 1) (by omega)
      rw [show (j - 1) + 1 = j from by omega] at this
      exact this
    have hsorted2 : ((lswap data j (j - 1)).take (j - 1)).Pairwise
        (fun a b => key a ≤ key b) := by
      rw [htake]
      rw [hsnoc] at hs
      exact (List.pairwise_append.mp hs).1
    have ih := sinkCF_sim key (lswap data j (j - 1)) (j - 1) hjm hsorted2
    rw [ih, htake, hget, hdrop]
    rw [hsnoc, insL_append_last_lt key _ _ _ hlt]
    simp
  · next hcond =>
    by_cases hj0 : j = 0
    · subst hj0
      simp only [List.take_zero, insL]
      exact take_getD_drop data 0 hj
    · have h1 : 1 ≤ j := by omega
      have hge : ¬ key (lgetD data j) < key (lgetD data (j - 1)) := by
        intro hlt
        exact hcond ⟨by omega, (intCompare_lt_iff _ _).mpr hlt⟩
      have hsnoc : data.take j = data.take (j - 1) ++ [lgetD data (j - 1)] := by
        have := take_snoc data (j - 1) (by omega)
        rw [show (j - 1) + 1 = j from by omega] at this
        exact this
      have hall : ∀ p ∈ data.take j, key p ≤ key (lgetD data j) := by
        intro p hp
        rw [hsnoc] at hp hs
        rcases List.mem_append.mp hp with hp1 | hp2
        · have hrel := (List.pairwise_append.mp hs).2.2 p hp1 (lgetD data (j - 1)) (by simp)
          omega
        · have : p = lgetD data (j - 1) := by simpa using hp2
          subst this
          omega
      rw [insL_of_all_le key _ _ hall]
      have := take_getD_drop data j hj
      conv_lhs => rw [this]
      simp
termination_by j
decreasing_by omega

theorem insCFAux_sim {α : Type} [Inhabited α] (key : α → Int) (data : List α) (i : Nat)
    (hi : 0 < i) (hle : i ≤ data.length)
    (hs : (data.take i).Pairwise (fun a b => key a ≤ key b)) :
    insCFAux (kcmp key) data 0 i data.length =
      insFold key (data.take i) (data.drop i) := by
  unfold insCFAux
  split
  · next hib =>
    have hsink := sinkCF_sim key data i hib hs
    have hlen1 : (insL key (lgetD data i) (data.take i)).length = i + 1 := by
      rw [length_insL]
      simp [List.length_take]
      omega
    have hlen2 : (sinkCF (kcmp key) data 0 i).length = data.length :=
      (sinkCF_perm (kcmp key) data 0 i).length_eq
    have htake : (sinkCF (kcmp key) data 0 i).take (i + 1) =
        insL key (lgetD data i) (data.take i) := by
      rw [hsink]
      exact take_left_of_len _ _ _ hlen1.symm
    have hdrop : (sinkCF (kcmp key) data 0 i).drop (i + 1) = data.drop (i + 1) := by
      rw [hsink]
      exact drop_left_of_len _ _ _ hlen1.symm
    have hsorted : ((sinkCF (kcmp key) data 0 i).take (i + 1)).Pairwise
        (fun a b => key a ≤ key b) := by
      rw [htake]
      exact insL_sorted key _ _ hs
    have ihraw := insCFAux_sim key (sinkCF (kcmp key) data 0 i) (i + 1)
      (by omega) (by omega) hsorted
    rw [hlen2] at ihraw
    rw [ihraw, htake, hdrop]
    have hdropi : data.drop i = lgetD data i :: data.drop (i + 1) :=
      drop_eq_getD_cons data i hib
    rw [hdropi]
    rfl
  · next hib =>
    have : i = data.length := by omega
    subst this
    simp [insFold]
termination_by data.length - i
decreasing_by
  have := (sinkCF_perm (kcmp key) data 0 i).length_eq
  omega

theorem insertionSortCF_full {α : Type} [Inhabited α] (key : α → Int) (l : List α) :
    insertionSortCF (kcmp key) l 0 l.length = goInsList key l := by
  cases l with
  | nil =>
    unfold insertionSortCF insCFAux
    simp [goInsList]
  | cons x xs =>
    unfold insertionSortCF
    rw [show (0 : Nat) + 1 = 1 from rfl]
    rw [insCFAux_sim key (x :: xs) 1 (by omega) (by simp) (by simp)]
    simp [goInsList, insFold]

theorem goSortFunc_small {α : Type} [Inhabited α] (key : α → Int) (l : List α)
    (h : l.length ≤ 12) : goSortFunc (kcmp key) l = goInsList key l := by
  unfold goSortFunc
  rw [show l.length + 16 = (l.length + 15) + 1 from rfl]
  unfold pdqsortCF
  rw [if_pos (by omega : l.length - 0 ≤ 12)]
  exact insertionSortCF_full key l

/-! ### Facts about digit runs, Atoi, and the int64 wrap -/

theorem digitRunsCh_sound :
    ∀ cs : List Char, ∀ r ∈ digitRunsCh cs, r ≠ [] ∧ r.all isDigitCh = true := by
  intro cs
  induction cs using digitRunsCh.induct with
  | case1 => intro r hr; simp [digitRunsCh] at hr
  | case2 c cs hdig ih =>
    intro r hr
    rw [digitRunsCh, if_pos hdig] at hr
    rcases List.mem_cons.mp hr with rfl | hr2
    · refine ⟨by simp, ?_⟩
      simp only [List.all_cons, hdig, Bool.true_and]
      exact List.all_takeWhile
    · exact ih r hr2
  | case3 c cs hdig ih =>
    intro r hr
    rw [digitRunsCh, if_neg hdig] at hr
    exact ih r hr

theorem digitRuns_sound (s : String) :
    ∀ r ∈ digitRuns s, r.data ≠ [] ∧ r.data.all isDigitCh = true := by
  intro r hr
  rcases List.mem_map.mp hr with ⟨rc, hrc, rfl⟩
  exact digitRunsCh_sound s.data rc hrc

theorem parseDigits_of_digits (ds : List Char) (h1 : ds ≠ [])
    (h2 : ds.all isDigitCh = true) : parseDigits ds = some (digitsVal ds) := by
  cases ds with
  | nil => exact absurd rfl h1
  | cons c cs =>
    show (if (c :: cs).all isDigitCh = true then some (digitsVal (c :: cs)) else none) =
      some (digitsVal (c :: cs))
    rw [if_pos h2]

theorem isDigitCh_ne_sign (c : Char) (h : isDigitCh c = true) : c ≠ '+' ∧ c ≠ '-' := by
  constructor
  · intro he
    subst he
    simp [isDigitCh] at h
  · intro he
    subst he
    simp [isDigitCh] at h

theorem goAtoi_of_digits (ds : List Char) (h1 : ds ≠ []) (h2 : ds.all isDigitCh = true)
    (h3 : (digitsVal ds : Int) ≤ maxInt64) :
    goAtoi ⟨ds⟩ = ((digitsVal ds : Int), true) := by
  cases ds with
  | nil => exact absurd rfl h1
  | cons c cs =>
    have hc : isDigitCh c = true := by
      rw [List.all_cons] at h2
      exact (Bool.and_eq_true_iff.mp h2).1
    have hsign := isDigitCh_ne_sign c hc
    show goAtoi (String.mk (c :: cs)) = _
    unfold goAtoi
    simp only [if_neg hsign.1, if_neg hsign.2]
    rw [parseDigits_of_digits _ h1 h2]
    simp only [if_neg (by omega : ¬ (digitsVal (c :: cs) : Int) > maxInt64)]

theorem wrap64_of_bounds (x : Int) (h1 : minInt64 ≤ x) (h2 : x ≤ maxInt64) :
    wrap64 x = x := by
  unfold wrap64
  unfold minInt64 at h1
  unfold maxInt64 at h2
  have : (x + 2 ^ 63) % 2 ^ 64 = x + 2 ^ 63 := Int.emod_eq_of_lt (by omega) (by omega)
  omega

/-! ### sortEpisodes characterization -/

theorem validateRuns_ok (i : Int) (eps : List String)
    (h : ∀ e ∈ eps, 0 ≤ i ∧ i < ((digitRuns (goBase e)).length : Int)) :
    validateRuns i eps = .ok () := by
  induction eps with
  | nil => rfl
  | cons e rest ih =>
    have he := h e (List.mem_cons_self e rest)
    unfold validateRuns
    rw [if_neg (by omega), if_neg (by omega)]
    exact ih (fun x hx => h x (List.mem_cons_of_mem e hx))

theorem validateRuns_error (i : Int) (eps : List String)
    (h : ∃ e ∈ eps, (digitRuns (goBase e)).length = 0 ∨
        ((digitRuns (goBase e)).length : Int) ≤ i ∨ i < 0) :
    ∃ er, validateRuns i eps = .error er := by
  induction eps with
  | nil => simp at h
  | cons e rest ih =>
    unfold validateRuns
    by_cases h0 : (digitRuns (goBase e)).length = 0
    · exact ⟨_, by rw [if_pos h0]⟩
    · rw [if_neg h0]
      by_cases h1 : i < 0 ∨ ((digitRuns (goBase e)).length : Int) ≤ i
      · exact ⟨_, by rw [if_pos h1]⟩
      · rw [if_neg h1]
        apply ih
        rcases h with ⟨x, hx, hprop⟩
        rcases List.mem_cons.mp hx with rfl | hmem
        · exact absurd hprop (by push_neg; omega)
        · exact ⟨x, hmem, hprop⟩

theorem sortEpisodes_ok (i : Int) (eps : List String)
    (h : ∀ e ∈ eps, 0 ≤ i ∧ i < ((digitRuns (goBase e)).length : Int)) :
    sortEpisodes eps i = .ok (goSortFunc (epCmp i) eps) := by
  unfold sortEpisodes
  rw [validateRuns_ok i eps h]

theorem sortEpisodes_error (i : Int) (eps : List String)
    (h : ∃ e ∈ eps, (digitRuns (goBase e)).length = 0 ∨
        ((digitRuns (goBase e)).length : Int) ≤ i ∨ i < 0) :
    ∃ er, sortEpisodes eps i = .error er := by
  unfold sortEpisodes
  rcases validateRuns_error i eps h with ⟨er, her⟩
  exact ⟨er, by rw [her]⟩

theorem sortEpisodes_perm (i : Int) (eps out : List String)
    (h : sortEpisodes eps i = .ok out) : out.Perm eps := by
  unfold sortEpisodes at h
  rcases hv : validateRuns i eps with er | u
  · rw [hv] at h
    exact absurd h (by simp)
  · rw [hv] at h
    have : goSortFunc (epCmp i) eps = out := by
      have := h
      simpa using this
    exact this ▸ goSortFunc_perm (epCmp i) eps

theorem epCmp_eq_kcmp (i : Int) : epCmp i = kcmp (epKey i) := rfl

/-! ### Filesystem lemmas: renames succeed on distinct existing sources and
leave unrelated paths alone -/

theorem find_filter_of_imp (l : List (String × Bool)) (p : String) (q : String × Bool → Bool)
    (h : ∀ e : String × Bool, e.1 = p → q e = true) :
    (l.filter q).find? (fun e => e.1 = p) = l.find? (fun e => e.1 = p) := by
  induction l with
  | nil => rfl
  | cons e rest ih =>
    by_cases he : e.1 = p
    · rw [List.filter_cons, if_pos (h e he)]
      rw [List.find?_cons_of_pos _ (by simp [he]), List.find?_cons_of_pos _ (by simp [he])]
    · rw [List.filter_cons]
      split
      · rw [List.find?_cons_of_neg _ (by simp [he]), List.find?_cons_of_neg _ (by simp [he])]
        exact ih
      · rw [List.find?_cons_of_neg _ (by simp [he])]
        exact ih

theorem statFS_renameFS_ne (fs fs2 : FS) (src dst p : String)
    (h : renameFS fs src dst = .ok fs2) (h1 : p ≠ src) (h2 : p ≠ dst) :
    statFS fs2 p = statFS fs p := by
  unfold renameFS at h
  rcases hs : statFS fs src with _ | d
  · rw [hs] at h
    exact absurd h (by simp)
  · rw [hs] at h
    have hfs2 : fs2 = ⟨(dst, d) :: (fs.ents.filter (fun e => e.1 ≠ src ∧ e.1 ≠ dst))⟩ := by
      cases h
      rfl
    subst hfs2
    show ((((dst, d) :: _).find? (fun e => e.1 = p)).map Prod.snd) = statFS fs p
    rw [List.find?_cons_of_neg _ (by simp [Ne.symm h2])]
    unfold statFS
    rw [find_filter_of_imp _ p _ (fun e he => by
      simp only [decide_eq_true_eq]
      subst he
      exact ⟨by simpa using h1, by simpa using h2⟩)]

theorem statFS_renameFS_dst (fs fs2 : FS) (src dst : String)
    (h : renameFS fs src dst = .ok fs2) : (statFS fs2 dst).isSome := by
  unfold renameFS at h
  rcases hs : statFS fs src with _ | d
  · rw [hs] at h
    exact absurd h (by simp)
  · rw [hs] at h
    have hfs2 : fs2 = ⟨(dst, d) :: (fs.ents.filter (fun e => e.1 ≠ src ∧ e.1 ≠ dst))⟩ := by
      cases h
      rfl
    subst hfs2
    unfold statFS
    rw [List.find?_cons_of_pos _ (by simp)]
    simp

theorem renameFS_ok_of_some (fs : FS) (src dst : String) (h : (statFS fs src).isSome) :
    ∃ fs2, renameFS fs src dst = .ok fs2 := by
  unfold renameFS
  rcases hs : statFS fs src with _ | d
  · rw [hs] at h
    simp at h
  · exact ⟨_, rfl⟩

theorem renameAll_none (fs : FS) (moves : List (String × String))
    (hnd : (moves.map Prod.fst).Nodup)
    (hex : ∀ m ∈ moves, (statFS fs m.1).isSome) :
    (renameAll fs moves).2 = none := by
  induction moves generalizing fs with
  | nil => rfl
  | cons mv rest ih =>
    obtain ⟨src, dst⟩ := mv
    have hsrc : (statFS fs src).isSome := hex (src, dst) (List.mem_cons_self _ _)
    rcases renameFS_ok_of_some fs src dst hsrc with ⟨fs2, hfs2⟩
    show (match renameFS fs src dst with
      | .ok fs1 => renameAll fs1 rest
      | .error er => ((renameAll fs rest).1, some er)).2 = none
    rw [hfs2]
    have hnd2 : src ∉ rest.map Prod.fst ∧ (rest.map Prod.fst).Nodup := by
      rw [List.map_cons] at hnd
      exact List.nodup_cons.mp hnd
    apply ih fs2
    · exact hnd2.2
    · intro m hm
      have hm1 : (statFS fs m.1).isSome := hex m (List.mem_cons_of_mem _ hm)
      have hne : m.1 ≠ src := by
        intro he
        exact hnd2.1 (he ▸ List.mem_map_of_mem Prod.fst hm)
      by_cases hd : m.1 = dst
      · rw [hd]
        exact statFS_renameFS_dst fs fs2 src dst hfs2
      · rw [statFS_renameFS_ne fs fs2 src dst m.1 hfs2 hne hd]
        exact hm1

theorem renameAll_stat_other (fs : FS) (moves : List (String × String)) (p : String)
    (h : ∀ m ∈ moves, p ≠ m.1 ∧ p ≠ m.2) :
    statFS (renameAll fs moves).1 p = statFS fs p := by
  induction moves generalizing fs with
  | nil => rfl
  | cons mv rest ih =>
    obtain ⟨src, dst⟩ := mv
    have hp := h (src, dst) (List.mem_cons_self _ _)
    show statFS (match renameFS fs src dst with
      | .ok fs1 => renameAll fs1 rest
      | .error er => ((renameAll fs rest).1, some er)).1 p = statFS fs p
    rcases hr : renameFS fs src dst with er | fs2
    · exact ih fs (fun m hm => h m (List.mem_cons_of_mem _ hm))
    · rw [ih fs2 (fun m hm => h m (List.mem_cons_of_mem _ hm))]
      exact statFS_renameFS_ne fs fs2 src dst p hr hp.1 hp.2

/-! ### Substring search characterization (strings.Index / Cut / Contains) -/

theorem isPre_iff (pat l : List Char) : isPre pat l = true ↔ ∃ t, l = pat ++ t := by
  induction pat generalizing l with
  | nil => simp [isPre]
  | cons a as ih =>
    cases l with
    | nil =>
      simp [isPre]
    | cons b bs =>
      rw [show isPre (a :: as) (b :: bs) = (decide (a = b) && isPre as bs) from rfl]
      simp only [Bool.and_eq_true, decide_eq_true_eq, ih]
      constructor
      · rintro ⟨rfl, t, rfl⟩
        exact ⟨t, rfl⟩
      · rintro ⟨t, ht⟩
        rcases List.cons_eq_cons.mp ht with ⟨rfl, h2⟩
        exact ⟨rfl, t, h2⟩

theorem isPre_length (pat l : List Char) (h : isPre pat l = true) : pat.length ≤ l.length := by
  rcases (isPre_iff pat l).mp h with ⟨t, rfl⟩
  simp

theorem subIdx_some (pat hay : List Char) (i : Nat) (h : subIdx pat hay = some i) :
    (∃ t, hay.drop i = pat ++ t) ∧ ∀ k < i, ¬ isPre pat (hay.drop k) = true := by
  induction hay generalizing i with
  | nil =>
    unfold subIdx at h
    split at h
    · next hp =>
      rcases Option.some.inj h with rfl
      exact ⟨(isPre_iff pat []).mp hp, by omega⟩
    · exact absurd h (by simp)
  | cons c rest ih =>
    unfold subIdx at h
    split at h
    · next hp =>
      rcases Option.some.inj h with rfl
      exact ⟨(isPre_iff pat (c :: rest)).mp hp, by omega⟩
    · next hp =>
      rcases Option.map_eq_some'.mp h with ⟨i0, hi0, rfl⟩
      rcases ih i0 hi0 with ⟨⟨t, ht⟩, hmin⟩
      refine ⟨⟨t, by simpa using ht⟩, ?_⟩
      intro k hk
      cases k with
      | zero => simpa using hp
      | succ k2 =>
        have := hmin k2 (by omega)
        simpa using this

theorem subIdx_isSome_of_isPre (pat hay : List Char) (h : isPre pat hay = true) :
    (subIdx pat hay).isSome := by
  cases hay with
  | nil =>
    show (if isPre pat [] = true then some 0 else none).isSome
    rw [if_pos h]
    rfl
  | cons c rest =>
    show (if isPre pat (c :: rest) = true then some 0
      else (subIdx pat rest).map (· + 1)).isSome
    rw [if_pos h]
    rfl

theorem subIdx_isSome_of_exists (pat hay : List Char)
    (h : ∃ A B, hay = A ++ pat ++ B) : (subIdx pat hay).isSome := by
  rcases h with ⟨A, B, rfl⟩
  induction A with
  | nil =>
    exact subIdx_isSome_of_isPre pat _ ((isPre_iff _ _).mpr ⟨B, by simp⟩)
  | cons c A2 ih =>
    show (subIdx pat (c :: (A2 ++ pat ++ B))).isSome
    show (if isPre pat (c :: (A2 ++ pat ++ B)) = true then some 0
      else (subIdx pat (A2 ++ pat ++ B)).map (· + 1)).isSome
    split
    · rfl
    · simpa using ih

theorem subIdx_bound (pat : List Char) :
    ∀ (hay : List Char) (i : Nat), subIdx pat hay = some i → i ≤ hay.length := by
  intro hay
  induction hay with
  | nil =>
    intro i h
    unfold subIdx at h
    split at h
    · rcases Option.some.inj h with rfl
      exact Nat.le_refl 0
    · exact absurd h (by simp)
  | cons c rest ih =>
    intro i h
    unfold subIdx at h
    split at h
    · rcases Option.some.inj h with rfl
      simp
    · rcases Option.map_eq_some'.mp h with ⟨i0, hi0, rfl⟩
      have := ih i0 hi0
      simp
      omega

theorem subIdx_le_length (pat hay : List Char) (i : Nat) (h : subIdx pat hay = some i) :
    i + pat.length ≤ hay.length := by
  rcases (subIdx_some pat hay i h).1 with ⟨t, ht⟩
  have hb := subIdx_bound pat hay i h
  have h1 : (hay.drop i).length = pat.length + t.length := by rw [ht]; simp
  have h2 : (hay.drop i).length = hay.length - i := by simp
  omega

/-- `strings.Cut` success: the cut point is a real occurrence and is leftmost
(the show name is exactly the text before the first `" ("`). -/
theorem goCut_some (s sep pre suf : String)
    (h : goCut s sep = (pre, suf, true)) :
    s = pre ++ sep ++ suf ∧
      ∀ p q : String, s = p ++ sep ++ q → pre.length ≤ p.length := by
  unfold goCut at h
  rcases hidx : subIdx sep.data s.data with _ | i
  · rw [hidx] at h
    simp at h
  · rw [hidx] at h
    rcases subIdx_some sep.data s.data i hidx with ⟨⟨t, ht⟩, hmin⟩
    have hlen := subIdx_le_length sep.data s.data i hidx
    have hpre : pre = ⟨s.data.take i⟩ := by
      have := congrArg (fun x : String × String × Bool => x.1) h
      simpa using this.symm
    have hsuf : suf = ⟨s.data.drop (i + sep.data.length)⟩ := by
      have := congrArg (fun x : String × String × Bool => x.2.1) h
      simpa using this.symm
    have ht2 : t = s.data.drop (i + sep.data.length) := by
      have h2 : (s.data.drop i).drop sep.data.length = t := by
        rw [ht]
        simp
      rw [List.drop_drop] at h2
      exact h2.symm
    have hdata : s.data = s.data.take i ++ sep.data ++ s.data.drop (i + sep.data.length) := by
      conv_lhs => rw [(s.data.take_append_drop i).symm]
      rw [List.append_assoc]
      congr 1
      rw [ht, ht2]
    constructor
    · rw [hpre, hsuf]
      cases s with
      | mk d =>
        show String.mk d = ⟨(d.take i ++ sep.data) ++ d.drop (i + sep.data.length)⟩
        exact congrArg String.mk (by simpa using hdata)
    · intro p q hpq
      by_contra hc
      push_neg at hc
      have hpre_len : pre.length = i := by
        rw [hpre]
        show (s.data.take i).length = i
        rw [List.length_take]
        omega
      have hplen : p.data.length < i := by
        have hp2 : p.length = p.data.length := rfl
        omega
      apply hmin p.data.length hplen
      apply (isPre_iff _ _).mpr
      refine ⟨q.data, ?_⟩
      have hdq : s.data = p.data ++ (sep.data ++ q.data) := by
        rw [hpq]
        show ((p ++ sep) ++ q).data = _
        rw [String.data_append, String.data_append]
        simp
      rw [hdq]
      exact List.drop_left p.data _

/-- `strings.Cut` finds the separator whenever one occurs. -/
theorem goCut_found (s sep : String) (h : ∃ p q : String, s = p ++ sep ++ q) :
    (goCut s sep).2.2 = true := by
  rcases h with ⟨p, q, rfl⟩
  have : (subIdx sep.data (p ++ sep ++ q).data).isSome := by
    apply subIdx_isSome_of_exists
    exact ⟨p.data, q.data, by rw [String.data_append, String.data_append]⟩
  unfold goCut
  rcases hidx : subIdx sep.data (p ++ sep ++ q).data with _ | i
  · rw [hidx] at this
    simp at this
  · rfl

/-- `strings.Cut` failure means the separator occurs nowhere. -/
theorem goCut_none (s sep : String) (h : (goCut s sep).2.2 = false) :
    ¬ ∃ p q : String, s = p ++ sep ++ q := by
  intro hex
  rw [goCut_found s sep hex] at h
  simp at h

/-! ### The `E(\d+)\.` scanner characterized -/

theorem takeWhile_all_append (p : α → Bool) (A : List α) (b : α) (B : List α)
    (hA : A.all p = true) (hb : p b = false) :
    (A ++ b :: B).takeWhile p = A ∧ (A ++ b :: B).dropWhile p = b :: B := by
  induction A with
  | nil => simp [List.takeWhile, List.dropWhile, hb]
  | cons a A2 ih =>
    rw [List.all_cons] at hA
    rcases Bool.and_eq_true_iff.mp hA with ⟨ha, hA2⟩
    have := ih hA2
    simp [List.takeWhile_cons, List.dropWhile_cons, ha, this.1, this.2]

theorem epMarkerAt_shape (ds post : List Char) (hds : ds ≠ [])
    (hdig : ds.all isDigitCh = true) :
    epMarkerAt ('E' :: (ds ++ '.' :: post)) = some ds := by
  have hdot : isDigitCh '.' = false := by simp [isDigitCh]
  have h := takeWhile_all_append isDigitCh ds '.' post hdig hdot
  show (if ('E' : Char) = 'E' then
      if (ds ++ '.' :: post).takeWhile isDigitCh ≠ [] ∧
          ((ds ++ '.' :: post).dropWhile isDigitCh).head? = some '.' then
        some ((ds ++ '.' :: post).takeWhile isDigitCh)
      else none
    else none) = some ds
  rw [if_pos rfl, h.1, h.2]
  rw [if_pos ⟨hds, rfl⟩]

theorem epMarkerAt_ne (c : Char) (rest : List Char) (hc : c ≠ 'E') :
    epMarkerAt (c :: rest) = none := by
  show (if c = 'E' then _ else none) = none
  rw [if_neg hc]

theorem findEpDigitsCh_of_shape (pre ds post : List Char) (hpre : 'E' ∉ pre)
    (hds : ds ≠ []) (hdig : ds.all isDigitCh = true) :
    findEpDigitsCh (pre ++ 'E' :: (ds ++ '.' :: post)) = some ds := by
  induction pre with
  | nil =>
    show findEpDigitsCh ('E' :: (ds ++ '.' :: post)) = some ds
    unfold findEpDigitsCh
    rw [epMarkerAt_shape ds post hds hdig]
  | cons c pre2 ih =>
    have hc : c ≠ 'E' := fun he => hpre (he ▸ List.mem_cons_self c pre2)
    show findEpDigitsCh (c :: (pre2 ++ 'E' :: (ds ++ '.' :: post))) = some ds
    unfold findEpDigitsCh
    rw [epMarkerAt_ne c _ hc]
    exact ih (fun hm => hpre (List.mem_cons_of_mem c hm))

theorem epMarkerAt_sound (cs ds : List Char) (h : epMarkerAt cs = some ds) :
    ∃ post, cs = 'E' :: (ds ++ '.' :: post) ∧ ds ≠ [] ∧ ds.all isDigitCh = true := by
  cases cs with
  | nil => exact absurd h (by simp [epMarkerAt])
  | cons c rest =>
    by_cases hc : c = 'E'
    · subst hc
      rw [show epMarkerAt ('E' :: rest) = (if rest.takeWhile isDigitCh ≠ [] ∧
          (rest.dropWhile isDigitCh).head? = some '.' then
            some (rest.takeWhile isDigitCh) else none) from rfl] at h
      split at h
      · next hcond =>
        rcases Option.some.inj h with rfl
        rcases hd : rest.dropWhile isDigitCh with _ | ⟨c2, post⟩
        · rw [hd] at hcond
          simp at hcond
        · rw [hd] at hcond
          have hc2 : c2 = '.' := by simpa using hcond.2
          subst hc2
          refine ⟨post, ?_, hcond.1, List.all_takeWhile⟩
          rw [← hd]
          rw [List.takeWhile_append_dropWhile]
      · exact absurd h (by simp)
    · rw [epMarkerAt_ne c rest hc] at h
      exact absurd h (by simp)

theorem findEpDigitsCh_sound (cs ds : List Char) (h : findEpDigitsCh cs = some ds) :
    ∃ pre post, cs = pre ++ 'E' :: (ds ++ '.' :: post) ∧ ds ≠ [] ∧
      ds.all isDigitCh = true := by
  induction cs with
  | nil => exact absurd h (by simp [findEpDigitsCh])
  | cons c rest ih =>
    unfold findEpDigitsCh at h
    rcases hm : epMarkerAt (c :: rest) with _ | ds2
    · rw [hm] at h
      rcases ih h with ⟨pre, post, heq, h1, h2⟩
      exact ⟨c :: pre, post, by rw [heq]; rfl, h1, h2⟩
    · rw [hm] at h
      rcases Option.some.inj h with rfl
      rcases epMarkerAt_sound _ _ hm with ⟨post, heq, h1, h2⟩
      exact ⟨[], post, by rw [heq]; rfl, h1, h2⟩

theorem findEpDigitsCh_none (cs : List Char)
    (h : ∀ A dsx B, cs = A ++ 'E' :: (dsx ++ '.' :: B) →
      dsx = [] ∨ ¬ dsx.all isDigitCh = true) :
    findEpDigitsCh cs = none := by
  rcases hf : findEpDigitsCh cs with _ | ds
  · rfl
  · rcases findEpDigitsCh_sound cs ds hf with ⟨pre, post, heq, h1, h2⟩
    rcases h pre ds post heq with hc | hc
    · exact absurd hc h1
    · exact absurd h2 hc

/-! ### Single-character index (epify v2's strings.Index on "E" and ".") -/

theorem isPre_single (c : Char) (l : List Char) :
    isPre [c] l = true ↔ ∃ t, l = c :: t := by
  rw [isPre_iff]
  constructor
  · rintro ⟨t, rfl⟩
    exact ⟨t, rfl⟩
  · rintro ⟨t, rfl⟩
    exact ⟨t, rfl⟩

theorem subIdx_single_of_shape (c : Char) (pre rest : List Char) (hpre : c ∉ pre) :
    subIdx [c] (pre ++ c :: rest) = some pre.length := by
  induction pre with
  | nil =>
    show subIdx [c] (c :: rest) = some 0
    show (if isPre [c] (c :: rest) = true then some 0
      else (subIdx [c] rest).map (· + 1)) = some 0
    rw [if_pos ((isPre_single c _).mpr ⟨rest, rfl⟩)]
  | cons d pre2 ih =>
    have hd : d ≠ c := fun he => hpre (he ▸ List.mem_cons_self d pre2)
    show subIdx [c] (d :: (pre2 ++ c :: rest)) = some (pre2.length + 1)
    show (if isPre [c] (d :: (pre2 ++ c :: rest)) = true then some 0
      else (subIdx [c] (pre2 ++ c :: rest)).map (· + 1)) = some (pre2.length + 1)
    rw [if_neg (by
      intro hp
      rcases (isPre_single c _).mp hp with ⟨t, ht⟩
      exact hd (List.cons_eq_cons.mp ht).1)]
    rw [ih (fun hm => hpre (List.mem_cons_of_mem d hm))]
    rfl

theorem subIdx_single_none (c : Char) (l : List Char) (h : c ∉ l) :
    subIdx [c] l = none := by
  induction l with
  | nil => rfl
  | cons d rest ih =>
    show (if isPre [c] (d :: rest) = true then some 0
      else (subIdx [c] rest).map (· + 1)) = none
    rw [if_neg (by
      intro hp
      rcases (isPre_single c _).mp hp with ⟨t, ht⟩
      exact h (((List.cons_eq_cons.mp ht).1).symm ▸ List.mem_cons_self d rest))]
    rw [ih (fun hm => h (List.mem_cons_of_mem d hm))]
    rfl

/-! ### The two last-entry parsers characterized -/

theorem take_append_add {α : Type} (A B : List α) (k : Nat) :
    (A ++ B).take (A.length + k) = A ++ B.take k := by
  induction A with
  | nil => simp
  | cons a A2 ih => simpa [Nat.succ_add] using ih

theorem drop_append_add {α : Type} (A B : List α) (k : Nat) :
    (A ++ B).drop (A.length + k) = B.drop k := by
  induction A with
  | nil => simp
  | cons a A2 ih => simpa [Nat.succ_add] using ih

/-- media.go accepts any entry containing an `E<digits>.` substring, using the
leftmost one; the int64-clamped `Atoi` of the digits is the offset. -/
theorem mediaLastEpisodeNumber_of_shape (pre ds post : List Char) (s : String)
    (hs : s.data = pre ++ 'E' :: (ds ++ '.' :: post)) (hpre : 'E' ∉ pre)
    (hds : ds ≠ []) (hdig : ds.all isDigitCh = true) :
    mediaLastEpisodeNumber s = .ok (atoiVal ⟨ds⟩) := by
  unfold mediaLastEpisodeNumber findEpisodeDigits
  rw [hs, findEpDigitsCh_of_shape pre ds post hpre hds hdig]
  rfl

theorem findEpDigitsCh_isSome_of_shape (A ds B : List Char) (hds : ds ≠ [])
    (hdig : ds.all isDigitCh = true) :
    (findEpDigitsCh (A ++ 'E' :: (ds ++ '.' :: B))).isSome := by
  induction A with
  | nil =>
    show (findEpDigitsCh ('E' :: (ds ++ '.' :: B))).isSome
    unfold findEpDigitsCh
    rw [epMarkerAt_shape ds B hds hdig]
    rfl
  | cons c A2 ih =>
    show (findEpDigitsCh (c :: (A2 ++ 'E' :: (ds ++ '.' :: B)))).isSome
    unfold findEpDigitsCh
    rcases hm : epMarkerAt (c :: (A2 ++ 'E' :: (ds ++ '.' :: B))) with _ | ds2
    · exact ih
    · rfl

/-- media.go rejects the entry only when no `E<digits>.` substring occurs. -/
theorem mediaLastEpisodeNumber_error_iff (s : String) :
    mediaLastEpisodeNumber s = .error (.invalidEpisodeEntry s) ↔
      ¬ ∃ A ds B, s.data = A ++ 'E' :: (ds ++ '.' :: B) ∧ ds ≠ [] ∧
        ds.all isDigitCh = true := by
  constructor
  · intro h hex
    rcases hex with ⟨A, ds, B, heq, h1, h2⟩
    have hsome : (findEpDigitsCh s.data).isSome := by
      rw [heq]
      exact findEpDigitsCh_isSome_of_shape A ds B h1 h2
    rcases hf : findEpDigitsCh s.data with _ | ds2
    · rw [hf] at hsome
      simp at hsome
    · unfold mediaLastEpisodeNumber findEpisodeDigits at h
      rw [hf] at h
      simp at h
  · intro h
    have hn : findEpDigitsCh s.data = none := by
      apply findEpDigitsCh_none
      intro A dsx B heq
      by_contra hc
      push_neg at hc
      exact h ⟨A, dsx, B, heq, hc.1, hc.2⟩
    unfold mediaLastEpisodeNumber findEpisodeDigits
    rw [hn]
    rfl

theorem goIndex_single_of_shape (c : Char) (s : String) (pre rest : List Char)
    (hs : s.data = pre ++ c :: rest) (hpre : c ∉ pre) (hc : (⟨[c]⟩ : String).data = [c]) :
    goIndex s ⟨[c]⟩ = (pre.length : Int) := by
  unfold goIndex
  rw [hc, hs, subIdx_single_of_shape c pre rest hpre]

theorem goIndex_single_none (c : Char) (s : String) (h : c ∉ s.data)
    (hc : (⟨[c]⟩ : String).data = [c]) : goIndex s ⟨[c]⟩ = -1 := by
  unfold goIndex
  rw [hc, subIdx_single_none c s.data h]

theorem epify_error_noE (s : String) (h : 'E' ∉ s.data) :
    epifyLastEpisodeNumber s = .error (.invalidEpisodeEntry s) := by
  unfold epifyLastEpisodeNumber
  rw [show goIndex s "E" = -1 from goIndex_single_none 'E' s h rfl]
  rw [if_pos (Or.inl rfl)]

theorem epify_error_noDot (s : String) (h : '.' ∉ s.data) :
    epifyLastEpisodeNumber s = .error (.invalidEpisodeEntry s) := by
  unfold epifyLastEpisodeNumber
  rw [show goIndex s "." = -1 from goIndex_single_none '.' s h rfl]
  rw [if_pos (Or.inr (Or.inl rfl))]

theorem epify_error_inverted (pre mid post : List Char) (s : String)
    (hs : s.data = pre ++ '.' :: (mid ++ 'E' :: post))
    (hE1 : 'E' ∉ pre) (hE2 : 'E' ∉ mid) (hd : '.' ∉ pre) :
    epifyLastEpisodeNumber s = .error (.invalidEpisodeEntry s) := by
  have hsE : s.data = (pre ++ '.' :: mid) ++ 'E' :: post := by
    rw [hs]
    simp
  have hEpre : 'E' ∉ pre ++ '.' :: mid := by
    intro hm
    rcases List.mem_append.mp hm with h1 | h2
    · exact hE1 h1
    · rcases List.mem_cons.mp h2 with h3 | h4
      · exact absurd h3.symm (by simp)
      · exact hE2 h4
  unfold epifyLastEpisodeNumber
  rw [show goIndex s "E" = ((pre ++ '.' :: mid).length : Int) from
    goIndex_single_of_shape 'E' s _ _ hsE hEpre rfl]
  rw [show goIndex s "." = (pre.length : Int) from
    goIndex_single_of_shape '.' s _ _ (by rw [hs]) hd rfl]
  rw [if_pos (Or.inr (Or.inr (by
    simp only [List.length_append, List.length_cons]
    omega)))]

theorem epify_of_shape (pre mid post : List Char) (s : String)
    (hs : s.data = pre ++ 'E' :: (mid ++ '.' :: post))
    (hE : 'E' ∉ pre) (hd1 : '.' ∉ pre) (hd2 : '.' ∉ mid) :
    epifyLastEpisodeNumber s =
      (match goAtoi ⟨mid⟩ with
       | (_, false) => .error (.invalidEpisodeNumber s)
       | (n, true) => .ok n) := by
  have hsd : s.data = (pre ++ 'E' :: mid) ++ '.' :: post := by
    rw [hs]
    simp
  have hdpre : '.' ∉ pre ++ 'E' :: mid := by
    intro hm
    rcases List.mem_append.mp hm with h1 | h2
    · exact hd1 h1
    · rcases List.mem_cons.mp h2 with h3 | h4
      · exact absurd h3.symm (by simp)
      · exact hd2 h4
  have hiE : goIndex s "E" = (pre.length : Int) :=
    goIndex_single_of_shape 'E' s _ _ hs hE rfl
  have hjD : goIndex s "." = ((pre ++ 'E' :: mid).length : Int) :=
    goIndex_single_of_shape '.' s _ _ hsd hdpre rfl
  have hjlen : (pre ++ 'E' :: mid).length = pre.length + (1 + mid.length) := by
    simp
    omega
  unfold epifyLastEpisodeNumber
  rw [hiE, hjD]
  rw [if_neg (by
    simp only [hjlen]
    push_neg
    refine ⟨by omega, by omega, by
      push_cast
      omega⟩)]
  have hslice : (s.data.take ((pre ++ 'E' :: mid).length : Int).toNat).drop
      (((pre.length : Int)).toNat + 1) = mid := by
    rw [Int.toNat_ofNat, Int.toNat_ofNat]
    rw [hjlen, hsd]
    have h1 : ((pre ++ 'E' :: mid) ++ '.' :: post).take (pre.length + (1 + mid.length)) =
        pre ++ 'E' :: mid := by
      have := take_left_of_len (pre ++ 'E' :: mid) ('.' :: post)
        (pre.length + (1 + mid.length)) (by simp; omega)
      exact this
    rw [h1]
    have h2 : (pre ++ 'E' :: mid).drop (pre.length + 1) = mid := by
      have := drop_append_add pre ('E' :: mid) 1
      simpa using this
    exact h2
  rw [hslice]

/-! ### MkSeason / AddEpisodes unfolding lemmas -/

theorem isEmpty_false_of_ne_nil {α : Type} (l : List α) (h : l ≠ []) :
    l.isEmpty = false := by
  cases l with
  | nil => exact absurd rfl h
  | cons x xs => rfl

theorem mkSeason_eq_finish (s : SeasonT) (fs : FS) (n : Int)
    (showName rest : String) (sorted : List String)
    (hN : goAtoi s.n = (n, true))
    (hstat : statFS fs s.showDir = some true)
    (hcut : goCut (goBase s.showDir) yearSep = (showName, rest, true))
    (hne : s.episodes ≠ [])
    (hst2 : statEpisodes fs s.episodes = .ok ())
    (hsort : sortEpisodes s.episodes s.matchIndex = .ok sorted) :
    mkSeason s fs = mkSeasonFinish s.showDir showName n sorted fs := by
  unfold mkSeason
  rw [hN, hstat, hcut, isEmpty_false_of_ne_nil _ hne, hst2, hsort]
  rfl

theorem mkSeason_badtoken (s : SeasonT) (fs : FS)
    (h : ∃ e ∈ s.episodes, (digitRuns (goBase e)).length = 0 ∨
        ((digitRuns (goBase e)).length : Int) ≤ s.matchIndex ∨ s.matchIndex < 0) :
    (mkSeason s fs).fs = fs ∧ (mkSeason s fs).moves = [] ∧
      ∃ er, (mkSeason s fs).res = .error er := by
  rcases sortEpisodes_error s.matchIndex s.episodes h with ⟨er, her⟩
  unfold mkSeason
  repeat' split
  all_goals
    first
    | exact ⟨rfl, rfl, _, rfl⟩
    | (next heq => rw [her] at heq; exact absurd heq (by simp))

theorem addEpisodes_badtoken (a : AdditionT) (fs : FS)
    (h : ∃ e ∈ a.episodes, (digitRuns (goBase e)).length = 0 ∨
        ((digitRuns (goBase e)).length : Int) ≤ a.matchIndex ∨ a.matchIndex < 0) :
    (addEpisodes a fs).fs = fs ∧ (addEpisodes a fs).moves = [] ∧
      ∃ er, (addEpisodes a fs).res = .error er := by
  rcases sortEpisodes_error a.matchIndex a.episodes h with ⟨er, her⟩
  unfold addEpisodes
  dsimp only
  repeat' split
  all_goals
    first
    | exact ⟨rfl, rfl, _, rfl⟩
    | simp_all

theorem season_trim_ne (b : String) (h : isPre "Season ".data b.data = true) :
    b ≠ ⟨b.data.drop 7⟩ := by
  intro he
  have hlen := isPre_length _ _ h
  have h7 : ("Season ".data).length = 7 := rfl
  rw [h7] at hlen
  have h2 : b.data.length = (b.data.drop 7).length :=
    congrArg List.length (congrArg String.data he)
  rw [List.length_drop] at h2
  omega

theorem addEpisodes_eq_finish (a : AdditionT) (fs : FS) (n epn : Int)
    (showName rest prevEp : String) (sorted : List String)
    (hstat : statFS fs a.seasonDir = some true)
    (hpre : isPre "Season ".data (goBase a.seasonDir).data = true)
    (hN : goAtoi ⟨(goBase a.seasonDir).data.drop 7⟩ = (n, true))
    (hcut : goCut (goBase (goDir a.seasonDir)) yearSep = (showName, rest, true))
    (hne : a.episodes ≠ [])
    (hst2 : statEpisodes fs a.episodes = .ok ())
    (hsort : sortEpisodes a.episodes a.matchIndex = .ok sorted)
    (hlast : (readDirFS fs a.seasonDir).getLast? = some prevEp)
    (hparse : mediaLastEpisodeNumber prevEp = .ok epn) :
    addEpisodes a fs = addFinish a.seasonDir showName n epn sorted fs := by
  unfold addEpisodes
  dsimp only
  rw [hstat, if_pos hpre, if_neg (season_trim_ne _ hpre), hN, hcut,
    isEmpty_false_of_ne_nil _ hne, hst2, hsort, hlast]
  show (match mediaLastEpisodeNumber prevEp with
    | .error e => (⟨fs, .error e, sorted, []⟩ : OpResult)
    | .ok epn2 => addFinish a.seasonDir showName n epn2 sorted fs) =
    addFinish a.seasonDir showName n epn sorted fs
  rw [hparse]

theorem addEpisodes_eq_finish_empty (a : AdditionT) (fs : FS) (n : Int)
    (showName rest : String) (sorted : List String)
    (hstat : statFS fs a.seasonDir = some true)
    (hpre : isPre "Season ".data (goBase a.seasonDir).data = true)
    (hN : goAtoi ⟨(goBase a.seasonDir).data.drop 7⟩ = (n, true))
    (hcut : goCut (goBase (goDir a.seasonDir)) yearSep = (showName, rest, true))
    (hne : a.episodes ≠ [])
    (hst2 : statEpisodes fs a.episodes = .ok ())
    (hsort : sortEpisodes a.episodes a.matchIndex = .ok sorted)
    (hlast : (readDirFS fs a.seasonDir).getLast? = none) :
    addEpisodes a fs = addFinish a.seasonDir showName n 0 sorted fs := by
  unfold addEpisodes
  dsimp only
  rw [hstat, if_pos hpre, if_neg (season_trim_ne _ hpre), hN, hcut,
    isEmpty_false_of_ne_nil _ hne, hst2, hsort, hlast]
  rfl

theorem addEpisodes_noPrefix (a : AdditionT) (fs : FS)
    (hstat : statFS fs a.seasonDir = some true)
    (hp : isPre "Season ".data (goBase a.seasonDir).data = false) :
    addEpisodes a fs = ⟨fs, .error (.invalidSeasonDirectory a.seasonDir), a.episodes, []⟩ := by
  unfold addEpisodes
  dsimp only
  rw [hstat]
  have hseason : (if isPre "Season ".data (goBase a.seasonDir).data = true
      then (⟨(goBase a.seasonDir).data.drop 7⟩ : String) else goBase a.seasonDir)
      = goBase a.seasonDir := if_neg (by simp [hp])
  rw [hseason, if_pos rfl]

theorem addEpisodes_badSeasonNumber (a : AdditionT) (fs : FS) (v : Int)
    (hstat : statFS fs a.seasonDir = some true)
    (hpre : isPre "Season ".data (goBase a.seasonDir).data = true)
    (hN : goAtoi ⟨(goBase a.seasonDir).data.drop 7⟩ = (v, false)) :
    addEpisodes a fs =
      ⟨fs, .error (.invalidSeason ⟨(goBase a.seasonDir).data.drop 7⟩), a.episodes, []⟩ := by
  unfold addEpisodes
  dsimp only
  rw [hstat, if_pos hpre, if_neg (season_trim_ne _ hpre), hN]

theorem statFS_cons (p : String) (d : Bool) (ents : List (String × Bool)) (q : String) :
    statFS ⟨(p, d) :: ents⟩ q = if p = q then some d else statFS ⟨ents⟩ q := by
  unfold statFS
  by_cases h : p = q
  · rw [List.find?_cons_of_pos _ (by simp [h]), if_pos h]
    rfl
  · rw [List.find?_cons_of_neg _ (by simp [h]), if_neg h]

theorem additionMoves_map_fst (seasonDir showName : String) (n epn : Int)
    (sorted : List String) :
    (additionMoves seasonDir showName n epn sorted).map Prod.fst = sorted := by
  unfold additionMoves
  rw [List.map_map]
  exact List.enum_map_snd sorted

theorem mkSeasonMoves_map_fst (seasonDir showName : String) (n : Int)
    (sorted : List String) :
    (mkSeasonMoves seasonDir showName n sorted).map Prod.fst = sorted := by
  unfold mkSeasonMoves
  rw [List.map_map]
  exact List.enum_map_snd sorted

theorem goJoin_ne_left (a b : String) : goJoin a b ≠ a := by
  intro he
  have := congrArg String.length he
  rw [goJoin] at this
  rw [String.length_append, String.length_append] at this
  have h1 : ("/" : String).length = 1 := rfl
  omega

theorem addFinish_spec (seasonDir showName : String) (n epn : Int)
    (sorted : List String) (fs : FS)
    (hnd : sorted.Nodup) (hex : ∀ e ∈ sorted, (statFS fs e).isSome) :
    (addFinish seasonDir showName n epn sorted fs).res = .ok () ∧
      (addFinish seasonDir showName n epn sorted fs).moves =
        additionMoves seasonDir showName n epn sorted ∧
      (addFinish seasonDir showName n epn sorted fs).episodes = sorted := by
  have hnone : (renameAll fs (additionMoves seasonDir showName n epn sorted)).2 = none := by
    apply renameAll_none
    · rw [additionMoves_map_fst]
      exact hnd
    · intro m hm
      have : m.1 ∈ (additionMoves seasonDir showName n epn sorted).map Prod.fst :=
        List.mem_map_of_mem Prod.fst hm
      rw [additionMoves_map_fst] at this
      exact hex m.1 this
  unfold addFinish
  dsimp only
  rw [hnone]
  exact ⟨rfl, rfl, rfl⟩

theorem mkSeasonFinish_spec (showDir showName : String) (n : Int)
    (sorted : List String) (fs : FS)
    (hnx : existsFS fs (goJoin showDir ("Season " ++ fmt02d n)) = false)
    (hnd : sorted.Nodup) (hex : ∀ e ∈ sorted, statFS fs e = some false) :
    (mkSeasonFinish showDir showName n sorted fs).res = .ok () ∧
      (mkSeasonFinish showDir showName n sorted fs).moves =
        mkSeasonMoves (goJoin showDir ("Season " ++ fmt02d n)) showName n sorted ∧
      (mkSeasonFinish showDir showName n sorted fs).episodes = sorted ∧
      statFS (mkSeasonFinish showDir showName n sorted fs).fs
        (goJoin showDir ("Season " ++ fmt02d n)) = some true := by
  have hmk : mkdirFS fs (goJoin showDir ("Season " ++ fmt02d n)) =
      .ok ⟨(goJoin showDir ("Season " ++ fmt02d n), true) :: fs.ents⟩ := by
    unfold mkdirFS
    rw [if_neg (by simp [hnx])]
  have hsd_ne : ∀ e ∈ sorted, e ≠ goJoin showDir ("Season " ++ fmt02d n) := by
    intro e he heq
    have := hex e he
    rw [heq] at this
    unfold existsFS at hnx
    rw [this] at hnx
    simp at hnx
  have hex1 : ∀ e ∈ sorted,
      statFS ⟨(goJoin showDir ("Season " ++ fmt02d n), true) :: fs.ents⟩ e = some false := by
    intro e he
    rw [statFS_cons, if_neg (fun h => (hsd_ne e he) h.symm)]
    exact hex e he
  have hnone : (renameAll ⟨(goJoin showDir ("Season " ++ fmt02d n), true) :: fs.ents⟩
      (mkSeasonMoves (goJoin showDir ("Season " ++ fmt02d n)) showName n sorted)).2 = none := by
    apply renameAll_none
    · rw [mkSeasonMoves_map_fst]
      exact hnd
    · intro m hm
      have : m.1 ∈ (mkSeasonMoves (goJoin showDir ("Season " ++ fmt02d n)) showName n sorted).map
          Prod.fst := List.mem_map_of_mem Prod.fst hm
      rw [mkSeasonMoves_map_fst] at this
      rw [hex1 m.1 this]
      rfl
  have hother : statFS (renameAll ⟨(goJoin showDir ("Season " ++ fmt02d n), true) :: fs.ents⟩
      (mkSeasonMoves (goJoin showDir ("Season " ++ fmt02d n)) showName n sorted)).1
      (goJoin showDir ("Season " ++ fmt02d n)) = some true := by
    rw [renameAll_stat_other]
    · rw [statFS_cons, if_pos rfl]
    · intro m hm
      constructor
      · intro he
        have : m.1 ∈ (mkSeasonMoves (goJoin showDir ("Season " ++ fmt02d n)) showName n
            sorted).map Prod.fst := List.mem_map_of_mem Prod.fst hm
        rw [mkSeasonMoves_map_fst] at this
        exact hsd_ne m.1 this he.symm
      · intro he
        rcases List.mem_map.mp hm with ⟨p, hp, hmp⟩
        have hm2 : m.2 = goJoin (goJoin showDir ("Season " ++ fmt02d n))
            (epName showName n ((p.1 : Int) + 1) (goExt p.2)) := by
          rw [← hmp]
        rw [hm2] at he
        exact goJoin_ne_left _ _ he.symm
  unfold mkSeasonFinish
  rw [hmk]
  dsimp only
  rw [hnone]
  exact ⟨rfl, rfl, rfl, hother⟩

/-! ### Inversion and idempotence lemmas -/

theorem sortEpisodes_ok_inv (eps sorted : List String) (i : Int)
    (h : sortEpisodes eps i = .ok sorted) : sorted = goSortFunc (epCmp i) eps := by
  unfold sortEpisodes at h
  rcases hv : validateRuns i eps with er | u
  · rw [hv] at h
    exact absurd h (by simp)
  · rw [hv] at h
    simpa using h.symm

theorem addFinish_episodes (seasonDir showName : String) (n epn : Int)
    (sorted : List String) (fs : FS) :
    (addFinish seasonDir showName n epn sorted fs).episodes = sorted := rfl

theorem mkSeasonFinish_episodes (showDir showName : String) (n : Int)
    (sorted : List String) (fs : FS) :
    (mkSeasonFinish showDir showName n sorted fs).episodes = sorted := by
  unfold mkSeasonFinish
  split
  · rfl
  · rfl

theorem mkdirAllFS_ok_stat (fs fs1 : FS) (p : String)
    (h : mkdirAllFS fs p = .ok fs1) : statFS fs1 p = some true := by
  unfold mkdirAllFS at h
  rcases hs : statFS fs p with _ | b
  · rw [hs] at h
    have h2 : fs1 = ⟨(p, true) :: fs.ents⟩ := by
      have h3 := h
      simp only [Except.ok.injEq] at h3
      exact h3.symm
    rw [h2, statFS_cons, if_pos rfl]
  · rw [hs] at h
    cases b
    · exact absurd h (by simp)
    · have h2 : fs = fs1 := by
        simpa using h
      rw [← h2]
      exact hs

theorem mkdirAllFS_stat_true (fs : FS) (p : String) (h : statFS fs p = some true) :
    mkdirAllFS fs p = .ok fs := by
  unfold mkdirAllFS
  rw [h]

theorem mkShow_idem (s : ShowT) (fs fs1 : FS) (h : mkShow s fs = (fs1, .ok ())) :
    mkShow s fs1 = (fs1, .ok ()) := by
  unfold mkShow at h ⊢
  by_cases hn : s.name.length = 0
  · rw [if_pos hn] at h
    exact absurd (congrArg Prod.snd h) (by simp)
  rw [if_neg hn] at h ⊢
  rcases hy : goAtoi s.year with ⟨y, yok⟩
  rw [hy] at h
  cases yok
  · exact absurd (congrArg Prod.snd h) (by simp)
  rcases hi : goAtoi s.id with ⟨d, dok⟩
  rw [hi] at h
  cases dok
  · exact absurd (congrArg Prod.snd h) (by simp)
  dsimp only at h ⊢
  rcases hm : mkdirAllFS fs (goJoin s.dir
      (s.name ++ " (" ++ toString y ++ ") [tvdbid-" ++ toString d ++ "]")) with e | fsA
  · rw [hm] at h
    exact absurd (congrArg Prod.snd h) (by simp)
  · rw [hm] at h
    have hfs : fsA = fs1 := congrArg Prod.fst h
    rw [hfs] at hm
    rw [mkdirAllFS_stat_true fs1 _ (mkdirAllFS_ok_stat fs fs1 _ hm)]

theorem mkSeason_exists_error (s : SeasonT) (fs : FS) (n : Int)
    (showName rest : String) (sorted : List String)
    (hN : goAtoi s.n = (n, true))
    (hstat : statFS fs s.showDir = some true)
    (hcut : goCut (goBase s.showDir) yearSep = (showName, rest, true))
    (hne : s.episodes ≠ [])
    (hst2 : statEpisodes fs s.episodes = .ok ())
    (hsort : sortEpisodes s.episodes s.matchIndex = .ok sorted)
    (hx : existsFS fs (goJoin s.showDir ("Season " ++ fmt02d n)) = true) :
    mkSeason s fs = ⟨fs, .error (.mkdirExists (goJoin s.showDir ("Season " ++ fmt02d n))),
      sorted, []⟩ := by
  rw [mkSeason_eq_finish s fs n showName rest sorted hN hstat hcut hne hst2 hsort]
  unfold mkSeasonFinish
  rw [show mkdirFS fs (goJoin s.showDir ("Season " ++ fmt02d n)) =
    .error (.mkdirExists (goJoin s.showDir ("Season " ++ fmt02d n))) from by
      unfold mkdirFS
      rw [if_pos hx]]

theorem mkSeason_noSep (s : SeasonT) (fs : FS) (n : Int)
    (hN : goAtoi s.n = (n, true))
    (hstat : statFS fs s.showDir = some true)
    (hfound : (goCut (goBase s.showDir) yearSep).2.2 = false) :
    mkSeason s fs = ⟨fs, .error (.invalidShowDirectory s.showDir), s.episodes, []⟩ := by
  unfold mkSeason
  rw [hN, hstat]
  rcases hc : goCut (goBase s.showDir) yearSep with ⟨p, q, b⟩
  rw [hc] at hfound
  cases b
  · rfl
  · simp at hfound

theorem addEpisodes_noSep (a : AdditionT) (fs : FS) (n : Int)
    (hstat : statFS fs a.seasonDir = some true)
    (hpre : isPre "Season ".data (goBase a.seasonDir).data = true)
    (hN : goAtoi ⟨(goBase a.seasonDir).data.drop 7⟩ = (n, true))
    (hfound : (goCut (goBase (goDir a.seasonDir)) yearSep).2.2 = false) :
    addEpisodes a fs = ⟨fs, .error (.invalidShowDirectory (goDir a.seasonDir)),
      a.episodes, []⟩ := by
  unfold addEpisodes
  dsimp only
  rw [hstat, if_pos hpre, if_neg (season_trim_ne _ hpre), hN]
  rcases hc : goCut (goBase (goDir a.seasonDir)) yearSep with ⟨p, q, b⟩
  rw [hc] at hfound
  cases b
  · rfl
  · simp at hfound

theorem atoiVal_of_digits (ds : List Char) (h1 : ds ≠ []) (h2 : ds.all isDigitCh = true)
    (h3 : (digitsVal ds : Int) ≤ maxInt64) : atoiVal ⟨ds⟩ = (digitsVal ds : Int) := by
  unfold atoiVal
  rw [goAtoi_of_digits ds h1 h2 h3]

theorem additionMoves_of_bounds (seasonDir showName : String) (n epn : Int)
    (sorted : List String) (h0 : 0 ≤ epn)
    (hb : epn + (sorted.length : Int) ≤ maxInt64) :
    additionMoves seasonDir showName n epn sorted =
      sorted.enum.map (fun p => (p.2, goJoin seasonDir
        (epName showName n (epn + (p.1 : Int) + 1) (goExt p.2)))) := by
  unfold additionMoves
  apply List.map_congr_left
  intro p hp
  have hget := List.mem_enum_iff_get?.mp hp
  rcases List.get?_eq_some.mp hget with ⟨hlt, _⟩
  have hlt2 : (p.1 : Int) < (sorted.length : Int) := by
    exact_mod_cast hlt
  unfold maxInt64 at hb
  rw [wrap64_of_bounds (epn + (p.1 : Int) + 1)
    (by unfold minInt64; omega) (by unfold maxInt64; omega)]

/-! ### trdone's directory scans characterized -/

theorem trdonePickSeason_inv (ents : List (String × Bool)) :
    ∀ (largest : Int) (acc r : Option String),
      trdonePickSeason ents largest acc = .ok r →
      (r = acc ∧ ∀ name m, (name, true) ∈ ents → seasonShaped name m → m ≤ largest) ∨
      (∃ name m, r = some name ∧ (name, true) ∈ ents ∧ seasonShaped name m ∧
        largest < m ∧ ∀ name2 m2, (name2, true) ∈ ents → seasonShaped name2 m2 → m2 ≤ m) := by
  induction ents with
  | nil =>
    intro largest acc r h
    unfold trdonePickSeason at h
    injection h with h2
    left
    refine ⟨h2.symm, ?_⟩
    intro name m hm
    simp at hm
  | cons e rest ih =>
    rcases e with ⟨name, isd⟩
    intro largest acc r h
    unfold trdonePickSeason at h
    cases isd with
    | false =>
      rw [if_neg (by simp)] at h
      rcases ih largest acc r h with ⟨hr, hb⟩ | ⟨nm, m, hr, hmem, hsh, hlt, hb⟩
      · left
        refine ⟨hr, ?_⟩
        intro name2 m2 hmem2 hsh2
        rcases List.mem_cons.mp hmem2 with heq | hmem3
        · exact absurd (congrArg Prod.snd heq) (by simp)
        · exact hb name2 m2 hmem3 hsh2
      · right
        refine ⟨nm, m, hr, List.mem_cons_of_mem _ hmem, hsh, hlt, ?_⟩
        intro name2 m2 hmem2 hsh2
        rcases List.mem_cons.mp hmem2 with heq | hmem3
        · exact absurd (congrArg Prod.snd heq) (by simp)
        · exact hb name2 m2 hmem3 hsh2
    | true =>
      rw [if_pos rfl] at h
      dsimp only at h
      by_cases hp : isPre "Season ".data name.data = true
      · rw [if_pos hp, if_neg (season_trim_ne name hp)] at h
        rcases hA : goAtoi ⟨name.data.drop 7⟩ with ⟨v, ok⟩
        rw [hA] at h
        cases ok with
        | false => exact absurd h (by simp)
        | true =>
          have h2 : (if v > largest then trdonePickSeason rest v (some name)
              else trdonePickSeason rest largest acc) = Except.ok r := h
          by_cases hv : v > largest
          · rw [if_pos hv] at h2
            rcases ih v (some name) r h2 with ⟨hr, hb⟩ | ⟨nm, m, hr, hmem, hsh, hlt, hb⟩
            · right
              refine ⟨name, v, hr, List.mem_cons_self _ _, ⟨hp, hA⟩, hv, ?_⟩
              intro name2 m2 hmem2 hsh2
              rcases List.mem_cons.mp hmem2 with heq | hmem3
              · have hn2 : name2 = name := congrArg Prod.fst heq
                rw [hn2] at hsh2
                have h5 := hsh2.2
                rw [hA] at h5
                have hm2 : v = m2 := congrArg Prod.fst h5
                omega
              · exact hb name2 m2 hmem3 hsh2
            · right
              refine ⟨nm, m, hr, List.mem_cons_of_mem _ hmem, hsh, by omega, ?_⟩
              intro name2 m2 hmem2 hsh2
              rcases List.mem_cons.mp hmem2 with heq | hmem3
              · have hn2 : name2 = name := congrArg Prod.fst heq
                rw [hn2] at hsh2
                have h5 := hsh2.2
                rw [hA] at h5
                have hm2 : v = m2 := congrArg Prod.fst h5
                omega
              · exact hb name2 m2 hmem3 hsh2
          · rw [if_neg hv] at h2
            rcases ih largest acc r h2 with ⟨hr, hb⟩ | ⟨nm, m, hr, hmem, hsh, hlt, hb⟩
            · left
              refine ⟨hr, ?_⟩
              intro name2 m2 hmem2 hsh2
              rcases List.mem_cons.mp hmem2 with heq | hmem3
              · have hn2 : name2 = name := congrArg Prod.fst heq
                rw [hn2] at hsh2
                have h5 := hsh2.2
                rw [hA] at h5
                have hm2 : v = m2 := congrArg Prod.fst h5
                omega
              · exact hb name2 m2 hmem3 hsh2
            · right
              refine ⟨nm, m, hr, List.mem_cons_of_mem _ hmem, hsh, hlt, ?_⟩
              intro name2 m2 hmem2 hsh2
              rcases List.mem_cons.mp hmem2 with heq | hmem3
              · have hn2 : name2 = name := congrArg Prod.fst heq
                rw [hn2] at hsh2
                have h5 := hsh2.2
                rw [hA] at h5
                have hm2 : v = m2 := congrArg Prod.fst h5
                omega
              · exact hb name2 m2 hmem3 hsh2
      · rw [if_neg hp, if_pos rfl] at h
        rcases ih largest acc r h with ⟨hr, hb⟩ | ⟨nm, m, hr, hmem, hsh, hlt, hb⟩
        · left
          refine ⟨hr, ?_⟩
          intro name2 m2 hmem2 hsh2
          rcases List.mem_cons.mp hmem2 with heq | hmem3
          · have hn2 : name2 = name := congrArg Prod.fst heq
            rw [hn2] at hsh2
            exact absurd hsh2.1 hp
          · exact hb name2 m2 hmem3 hsh2
        · right
          refine ⟨nm, m, hr, List.mem_cons_of_mem _ hmem, hsh, hlt, ?_⟩
          intro name2 m2 hmem2 hsh2
          rcases List.mem_cons.mp hmem2 with heq | hmem3
          · have hn2 : name2 = name := congrArg Prod.fst heq
            rw [hn2] at hsh2
            exact absurd hsh2.1 hp
          · exact hb name2 m2 hmem3 hsh2

theorem trdonePickSeason_top (ents : List (String × Bool)) (r : Option String)
    (h : trdonePickSeason ents 0 none = .ok r) :
    (r = none → ∀ name m, (name, true) ∈ ents → seasonShaped name m → m ≤ 0) ∧
    (∀ name, r = some name → ∃ m, (name, true) ∈ ents ∧ seasonShaped name m ∧ 0 < m ∧
      ∀ name2 m2, (name2, true) ∈ ents → seasonShaped name2 m2 → m2 ≤ m) := by
  rcases trdonePickSeason_inv ents 0 none r h with ⟨hr, hb⟩ | ⟨nm, m, hr, hmem, hsh, hlt, hb⟩
  · constructor
    · intro _ name m hmem hsh
      exact hb name m hmem hsh
    · intro name hr2
      rw [hr] at hr2
      exact absurd hr2 (by simp)
  · constructor
    · intro hr2
      rw [hr] at hr2
      exact absurd hr2 (by simp)
    · intro name hr2
      rw [hr] at hr2
      have hn : nm = name := by
        simpa using hr2
      rw [hn] at hmem hsh
      exact ⟨m, hmem, hsh, hlt, hb⟩

theorem trdonePickShow_some (trName : String) (ents : List (String × Bool)) (name : String)
    (h : trdonePickShow trName ents = some name) :
    ∃ A B : List (String × Bool), ents = A ++ (name, true) :: B ∧
      (∃ showName rest, goCut name yearSep = (showName, rest, true) ∧
        containsSub trName showName = true) ∧
      ∀ e ∈ A, e.2 = false ∨ (goCut e.1 yearSep).2.2 = false ∨
        ∀ showName2 rest2, goCut e.1 yearSep = (showName2, rest2, true) →
          containsSub trName showName2 = false := by
  induction ents with
  | nil =>
    unfold trdonePickShow at h
    exact absurd h (by simp)
  | cons e rest ih =>
    rcases e with ⟨nm, isd⟩
    unfold trdonePickShow at h
    cases isd with
    | false =>
      rw [if_neg (by simp)] at h
      rcases ih h with ⟨A, B, hsplit, hfound, hfail⟩
      refine ⟨(nm, false) :: A, B, by rw [hsplit, List.cons_append], hfound, ?_⟩
      intro e2 he2
      rcases List.mem_cons.mp he2 with heq | hmem
      · exact Or.inl (congrArg Prod.snd heq)
      · exact hfail e2 hmem
    | true =>
      rw [if_pos rfl] at h
      rcases hc : goCut nm yearSep with ⟨sn, rst, b⟩
      rw [hc] at h
      cases b with
      | false =>
        rcases ih h with ⟨A, B, hsplit, hfound, hfail⟩
        refine ⟨(nm, true) :: A, B, by rw [hsplit, List.cons_append], hfound, ?_⟩
        intro e2 he2
        rcases List.mem_cons.mp he2 with heq | hmem
        · refine Or.inr (Or.inl ?_)
          rw [show e2.1 = nm from congrArg Prod.fst heq, hc]
        · exact hfail e2 hmem
      | true =>
        have h2 : (if containsSub trName sn = true then some nm
            else trdonePickShow trName rest) = some name := h
        by_cases hcont : containsSub trName sn = true
        · rw [if_pos hcont] at h2
          have hn : nm = name := by
            simpa using h2
          refine ⟨[], rest, by rw [hn]; rfl, ⟨sn, rst, by rw [← hn]; exact hc, hcont⟩, ?_⟩
          intro e2 he2
          simp at he2
        · rw [if_neg hcont] at h2
          rcases ih h2 with ⟨A, B, hsplit, hfound, hfail⟩
          refine ⟨(nm, true) :: A, B, by rw [hsplit, List.cons_append], hfound, ?_⟩
          intro e2 he2
          rcases List.mem_cons.mp he2 with heq | hmem
          · refine Or.inr (Or.inr ?_)
            intro sn2 rst2 hgc
            rw [show e2.1 = nm from congrArg Prod.fst heq, hc] at hgc
            have hsn : sn = sn2 := congrArg (fun x : String × String × Bool => x.1) hgc
            rw [← hsn]
            exact Bool.not_eq_true _ ▸ (by simpa using hcont)
          · exact hfail e2 hmem

theorem trdoneRun_noShow (dir trDir trName : String) (fs : FS)
    (hstat : statFS fs dir = some true)
    (hne : (readDirEntsFS fs dir).isEmpty = false)
    (hpick : trdonePickShow trName (readDirEntsFS fs dir) = none) :
    trdoneRun dir trDir trName fs = ⟨fs, .error (.noShowDirectory trName), [], []⟩ := by
  unfold trdoneRun
  rw [hstat]
  dsimp only
  rw [hne, hpick]
  rfl

theorem trdoneRun_noSeason (dir trDir trName name : String) (fs : FS)
    (hstat : statFS fs dir = some true)
    (hne : (readDirEntsFS fs dir).isEmpty = false)
    (hpick : trdonePickShow trName (readDirEntsFS fs dir) = some name)
    (hne2 : (readDirEntsFS fs (goJoin dir name)).isEmpty = false)
    (hseason : trdonePickSeason (readDirEntsFS fs (goJoin dir name)) 0 none = .ok none) :
    trdoneRun dir trDir trName fs = ⟨fs, .error (.noSeasonDirectory (goJoin dir name)), [], []⟩ := by
  unfold trdoneRun
  rw [hstat]
  dsimp only
  rw [hne, hpick]
  dsimp only
  rw [hne2, hseason]
  rfl

theorem trdoneRun_delegates (dir trDir trName name sname : String) (fs : FS)
    (hstat : statFS fs dir = some true)
    (hne : (readDirEntsFS fs dir).isEmpty = false)
    (hpick : trdonePickShow trName (readDirEntsFS fs dir) = some name)
    (hne2 : (readDirEntsFS fs (goJoin dir name)).isEmpty = false)
    (hseason : trdonePickSeason (readDirEntsFS fs (goJoin dir name)) 0 none =
      .ok (some sname)) :
    trdoneRun dir trDir trName fs =
      addEpisodes ⟨goJoin (goJoin dir name) sname, [goJoin trDir trName], 0⟩ fs := by
  unfold trdoneRun
  rw [hstat]
  dsimp only
  rw [hne, hpick]
  dsimp only
  rw [hne2, hseason]
  rfl

/-! ## The claims -/

/-- Claim C3: for every batch given to MkSeason or AddEpisodes, if any single
file's base name has zero digit runs (no numeric token) or fewer than
matchIndex+1 digit runs (match index out of range, including a negative
index), the whole operation returns an error with no filesystem mutation:
the state is unchanged and no rename is issued. -/
theorem claim_c3_validation_before_mutation (s : SeasonT) (a : AdditionT) (fs : FS)
    (hs : ∃ e ∈ s.episodes, (digitRuns (goBase e)).length = 0 ∨
        ((digitRuns (goBase e)).length : Int) ≤ s.matchIndex ∨ s.matchIndex < 0)
    (ha : ∃ e ∈ a.episodes, (digitRuns (goBase e)).length = 0 ∨
        ((digitRuns (goBase e)).length : Int) ≤ a.matchIndex ∨ a.matchIndex < 0) :
    ((mkSeason s fs).fs = fs ∧ (mkSeason s fs).moves = [] ∧
      ∃ er, (mkSeason s fs).res = .error er) ∧
    ((addEpisodes a fs).fs = fs ∧ (addEpisodes a fs).moves = [] ∧
      ∃ er, (addEpisodes a fs).res = .error er) :=
  ⟨mkSeason_badtoken s fs hs, addEpisodes_badtoken a fs ha⟩

/-- Witness for C3: a concrete batch whose single file has no digits aborts
both operations with the filesystem untouched. -/
theorem claim_c3_validation_before_mutation_case :
    ((mkSeason ⟨"3", "/tv/A (1)", ["/e/noNum.mkv"], 0⟩ ⟨[]⟩).fs = (⟨[]⟩ : FS) ∧
      (mkSeason ⟨"3", "/tv/A (1)", ["/e/noNum.mkv"], 0⟩ ⟨[]⟩).moves = [] ∧
      ∃ er, (mkSeason ⟨"3", "/tv/A (1)", ["/e/noNum.mkv"], 0⟩ ⟨[]⟩).res = .error er) ∧
    ((addEpisodes ⟨"/tv/A (1)/Season 03", ["/e/noNum.mkv"], 0⟩ ⟨[]⟩).fs = (⟨[]⟩ : FS) ∧
      (addEpisodes ⟨"/tv/A (1)/Season 03", ["/e/noNum.mkv"], 0⟩ ⟨[]⟩).moves = [] ∧
      ∃ er, (addEpisodes ⟨"/tv/A (1)/Season 03", ["/e/noNum.mkv"], 0⟩ ⟨[]⟩).res = .error er) :=
  claim_c3_validation_before_mutation ⟨"3", "/tv/A (1)", ["/e/noNum.mkv"], 0⟩
    ⟨"/tv/A (1)/Season 03", ["/e/noNum.mkv"], 0⟩ ⟨[]⟩
    (by simp [digitRuns, digitRunsCh, goBase, isDigitCh, List.takeWhile, List.dropWhile])
    (by simp [digitRuns, digitRunsCh, goBase, isDigitCh, List.takeWhile, List.dropWhile])

/-- Claim C9: MkSeason and AddEpisodes sort the caller's Episodes slice in
place: a successful sortEpisodes result is exactly the pdqsort permutation of
the input batch, and on any run that reaches the rename stage the operation's
final Episodes slice holds that sorted permutation, not the original order. -/
theorem claim_c9_batch_reordered_in_place (s : SeasonT) (a : AdditionT) (fs : FS) :
    (∀ sorted, sortEpisodes s.episodes s.matchIndex = .ok sorted →
      sorted = goSortFunc (epCmp s.matchIndex) s.episodes ∧ sorted.Perm s.episodes) ∧
    (∀ n showName rest sorted, goAtoi s.n = (n, true) → statFS fs s.showDir = some true →
      goCut (goBase s.showDir) yearSep = (showName, rest, true) → s.episodes ≠ [] →
      statEpisodes fs s.episodes = .ok () →
      sortEpisodes s.episodes s.matchIndex = .ok sorted →
      (mkSeason s fs).episodes = sorted) ∧
    (∀ n epn showName rest prevEp sorted,
      statFS fs a.seasonDir = some true →
      isPre "Season ".data (goBase a.seasonDir).data = true →
      goAtoi ⟨(goBase a.seasonDir).data.drop 7⟩ = (n, true) →
      goCut (goBase (goDir a.seasonDir)) yearSep = (showName, rest, true) →
      a.episodes ≠ [] → statEpisodes fs a.episodes = .ok () →
      sortEpisodes a.episodes a.matchIndex = .ok sorted →
      (readDirFS fs a.seasonDir).getLast? = some prevEp →
      mediaLastEpisodeNumber prevEp = .ok epn →
      (addEpisodes a fs).episodes = sorted) := by
  refine ⟨?_, ?_, ?_⟩
  · intro sorted h
    exact ⟨sortEpisodes_ok_inv _ _ _ h, sortEpisodes_perm _ _ _ h⟩
  · intro n showName rest sorted hN hstat hcut hne hst2 hsort
    rw [mkSeason_eq_finish s fs n showName rest sorted hN hstat hcut hne hst2 hsort]
    exact mkSeasonFinish_episodes _ _ _ _ _
  · intro n epn showName rest prevEp sorted hstat hpre hN hcut hne hst2 hsort hlast hparse
    rw [addEpisodes_eq_finish a fs n epn showName rest prevEp sorted hstat hpre hN hcut
      hne hst2 hsort hlast hparse]
    exact addFinish_episodes _ _ _ _ _ _

/-- Witness for C9: a two-file batch given in descending token order comes
back ascending, a visible reordering of the caller's slice. -/
theorem claim_c9_batch_reordered_in_place_case :
    (["/e/a1.mkv", "/e/b2.mkv"] : List String) = goSortFunc (epCmp 0)
      ["/e/b2.mkv", "/e/a1.mkv"] ∧
    (["/e/a1.mkv", "/e/b2.mkv"] : List String).Perm ["/e/b2.mkv", "/e/a1.mkv"] :=
  (claim_c9_batch_reordered_in_place ⟨"3", "/tv/A (1)", ["/e/b2.mkv", "/e/a1.mkv"], 0⟩
    ⟨"/tv/A (1)/Season 03", [], 0⟩ ⟨[]⟩).1 ["/e/a1.mkv", "/e/b2.mkv"]
    (by simp [sortEpisodes, validateRuns, digitRuns, digitRunsCh, goBase, goAtoi, parseDigits,
      digitsVal, atoiVal, epCmp, epKey, intCompare, goSortFunc, pdqsortCF, insertionSortCF,
      insCFAux, sinkCF, lswap, lgetD, maxInt64, minInt64, bitsLen, isDigitCh,
      List.takeWhile, List.dropWhile])

/-- Claim C10: MkShow is idempotent at the public interface: a second run on
the state a successful run produced succeeds again and leaves that state
unchanged, because directory creation goes through MkdirAll, which tolerates
an existing directory; by contrast MkSeason uses Mkdir and fails with an
already-exists error, leaving the filesystem untouched, when the target
season directory is already present. -/
theorem claim_c10_mkshow_idempotent (sh : ShowT) (t : SeasonT) (fs fs1 : FS) :
    (mkShow sh fs = (fs1, .ok ()) → mkShow sh fs1 = (fs1, .ok ())) ∧
    (∀ n showName rest sorted, goAtoi t.n = (n, true) → statFS fs t.showDir = some true →
      goCut (goBase t.showDir) yearSep = (showName, rest, true) → t.episodes ≠ [] →
      statEpisodes fs t.episodes = .ok () →
      sortEpisodes t.episodes t.matchIndex = .ok sorted →
      existsFS fs (goJoin t.showDir ("Season " ++ fmt02d n)) = true →
      mkSeason t fs = ⟨fs, .error (.mkdirExists (goJoin t.showDir ("Season " ++ fmt02d n))),
        sorted, []⟩) :=
  ⟨mkShow_idem sh fs fs1,
    fun n showName rest sorted hN hstat hcut hne hst2 hsort hx =>
      mkSeason_exists_error t fs n showName rest sorted hN hstat hcut hne hst2 hsort hx⟩

/-- Witness for C10: running MkShow twice on an empty filesystem yields the
same single show directory, and MkSeason on an already-present season
directory fails with the exists error. -/
theorem claim_c10_mkshow_idempotent_case :
    mkShow ⟨"A", "1", "2", "/tv"⟩ ⟨[]⟩ = (⟨[("/tv/A (1) [tvdbid-2]", true)]⟩, .ok ()) ∧
    mkShow ⟨"A", "1", "2", "/tv"⟩ ⟨[("/tv/A (1) [tvdbid-2]", true)]⟩ =
      (⟨[("/tv/A (1) [tvdbid-2]", true)]⟩, .ok ()) ∧
    mkSeason ⟨"3", "/tv/A (1)", ["/e/ep1.mkv"], 0⟩
        ⟨[("/tv/A (1)", true), ("/tv/A (1)/Season 03", true), ("/e/ep1.mkv", false)]⟩ =
      ⟨⟨[("/tv/A (1)", true), ("/tv/A (1)/Season 03", true), ("/e/ep1.mkv", false)]⟩,
        .error (.mkdirExists "/tv/A (1)/Season 03"), ["/e/ep1.mkv"], []⟩ :=
  ⟨rfl,
    (claim_c10_mkshow_idempotent ⟨"A", "1", "2", "/tv"⟩ ⟨"3", "/tv/A (1)", ["/e/ep1.mkv"], 0⟩
      ⟨[]⟩ ⟨[("/tv/A (1) [tvdbid-2]", true)]⟩).1 rfl,
    (claim_c10_mkshow_idempotent ⟨"A", "1", "2", "/tv"⟩ ⟨"3", "/tv/A (1)", ["/e/ep1.mkv"], 0⟩
      ⟨[("/tv/A (1)", true), ("/tv/A (1)/Season 03", true), ("/e/ep1.mkv", false)]⟩ ⟨[]⟩).2
      3 "A" "1)" ["/e/ep1.mkv"] rfl rfl rfl (by simp) rfl
      (by simp [sortEpisodes, validateRuns, digitRuns, digitRunsCh, goBase, goAtoi, parseDigits,
        digitsVal, atoiVal, epCmp, epKey, intCompare, goSortFunc, pdqsortCF, insertionSortCF,
        insCFAux, sinkCF, lswap, lgetD, maxInt64, minInt64, bitsLen, isDigitCh,
        List.takeWhile, List.dropWhile]) rfl⟩

/-- Claim C4: a valid MkSeason call creates the zero-padded season directory
inside the show directory and issues exactly one rename per batch file, with
episode numbers 1..N in sorted-batch order, each destination built from the
template `<show> S<NN>E<NN><original extension>`. -/
theorem claim_c4_mkseason_numbers_from_one (s : SeasonT) (fs : FS) (n : Int)
    (showName rest : String) (sorted : List String)
    (hN : goAtoi s.n = (n, true))
    (hstat : statFS fs s.showDir = some true)
    (hcut : goCut (goBase s.showDir) yearSep = (showName, rest, true))
    (hne : s.episodes ≠ [])
    (hst2 : statEpisodes fs s.episodes = .ok ())
    (hsort : sortEpisodes s.episodes s.matchIndex = .ok sorted)
    (hnx : existsFS fs (goJoin s.showDir ("Season " ++ fmt02d n)) = false)
    (hnd : sorted.Nodup)
    (hex : ∀ e ∈ sorted, statFS fs e = some false) :
    (mkSeason s fs).res = .ok () ∧
    statFS (mkSeason s fs).fs (goJoin s.showDir ("Season " ++ fmt02d n)) = some true ∧
    (mkSeason s fs).moves = sorted.enum.map (fun p => (p.2,
      goJoin (goJoin s.showDir ("Season " ++ fmt02d n))
        (epName showName n ((p.1 : Int) + 1) (goExt p.2)))) := by
  rw [mkSeason_eq_finish s fs n showName rest sorted hN hstat hcut hne hst2 hsort]
  rcases mkSeasonFinish_spec s.showDir showName n sorted fs hnx hnd hex with ⟨h1, h2, h3, h4⟩
  exact ⟨h1, h4, h2.trans rfl⟩

/-- Witness for C4: the spec's The Office scenario, with season directory
`Season 03` created and episodes E01, E02 assigned in order. -/
theorem claim_c4_mkseason_numbers_from_one_case :
    (mkSeason ⟨"3", "/tv/The Office (2005) [tvdbid-73244]", ["/e/ep1.mkv", "/e/ep2.mkv"], 0⟩
      ⟨[("/tv/The Office (2005) [tvdbid-73244]", true), ("/e/ep1.mkv", false),
        ("/e/ep2.mkv", false)]⟩).res = .ok () ∧
    statFS (mkSeason ⟨"3", "/tv/The Office (2005) [tvdbid-73244]",
        ["/e/ep1.mkv", "/e/ep2.mkv"], 0⟩
      ⟨[("/tv/The Office (2005) [tvdbid-73244]", true), ("/e/ep1.mkv", false),
        ("/e/ep2.mkv", false)]⟩).fs
      (goJoin "/tv/The Office (2005) [tvdbid-73244]" ("Season " ++ fmt02d 3)) = some true ∧
    (mkSeason ⟨"3", "/tv/The Office (2005) [tvdbid-73244]", ["/e/ep1.mkv", "/e/ep2.mkv"], 0⟩
      ⟨[("/tv/The Office (2005) [tvdbid-73244]", true), ("/e/ep1.mkv", false),
        ("/e/ep2.mkv", false)]⟩).moves =
      (["/e/ep1.mkv", "/e/ep2.mkv"] : List String).enum.map (fun p => (p.2,
        goJoin (goJoin "/tv/The Office (2005) [tvdbid-73244]" ("Season " ++ fmt02d 3))
          (epName "The Office" 3 ((p.1 : Int) + 1) (goExt p.2)))) :=
  claim_c4_mkseason_numbers_from_one
    ⟨"3", "/tv/The Office (2005) [tvdbid-73244]", ["/e/ep1.mkv", "/e/ep2.mkv"], 0⟩
    ⟨[("/tv/The Office (2005) [tvdbid-73244]", true), ("/e/ep1.mkv", false),
      ("/e/ep2.mkv", false)]⟩ 3 "The Office" "2005) [tvdbid-73244]"
    ["/e/ep1.mkv", "/e/ep2.mkv"] rfl rfl rfl (by simp) rfl
    (by simp [sortEpisodes, validateRuns, digitRuns, digitRunsCh, goBase, goAtoi, parseDigits,
      digitsVal, atoiVal, epCmp, epKey, intCompare, goSortFunc, pdqsortCF, insertionSortCF,
      insCFAux, sinkCF, lswap, lgetD, maxInt64, minInt64, bitsLen, isDigitCh,
      List.takeWhile, List.dropWhile]) rfl (by decide) (by decide)

/-- Claim C5 (amended): AddEpisodes rejects a season directory whose base
name lacks the `"Season "` prefix, and rejects one whose remainder fails Go's
Atoi; but Atoi accepts signed integers, so a negative remainder such as
`"Season -1"` passes validation and the operation proceeds to rename files
with a negative season number. -/
theorem claim_c5_season_directory_validation (a : AdditionT) (fs : FS)
    (hstat : statFS fs a.seasonDir = some true) :
    (isPre "Season ".data (goBase a.seasonDir).data = false →
      addEpisodes a fs = ⟨fs, .error (.invalidSeasonDirectory a.seasonDir),
        a.episodes, []⟩) ∧
    (∀ v, isPre "Season ".data (goBase a.seasonDir).data = true →
      goAtoi ⟨(goBase a.seasonDir).data.drop 7⟩ = (v, false) →
      addEpisodes a fs = ⟨fs, .error (.invalidSeason ⟨(goBase a.seasonDir).data.drop 7⟩),
        a.episodes, []⟩) :=
  ⟨fun hp => addEpisodes_noPrefix a fs hstat hp,
    fun v hpre hN => addEpisodes_badSeasonNumber a fs v hstat hpre hN⟩

/-- Witness for C5: a directory base without the prefix is rejected, and a
remainder that is not an integer at all is rejected. -/
theorem claim_c5_season_directory_validation_case :
    addEpisodes ⟨"/tv/A (1)/Extras", ["/e/ep1.mkv"], 0⟩ ⟨[("/tv/A (1)/Extras", true)]⟩ =
      ⟨⟨[("/tv/A (1)/Extras", true)]⟩, .error (.invalidSeasonDirectory "/tv/A (1)/Extras"),
        ["/e/ep1.mkv"], []⟩ ∧
    addEpisodes ⟨"/tv/A (1)/Season x", ["/e/ep1.mkv"], 0⟩ ⟨[("/tv/A (1)/Season x", true)]⟩ =
      ⟨⟨[("/tv/A (1)/Season x", true)]⟩, .error (.invalidSeason "x"), ["/e/ep1.mkv"], []⟩ :=
  ⟨(claim_c5_season_directory_validation ⟨"/tv/A (1)/Extras", ["/e/ep1.mkv"], 0⟩
      ⟨[("/tv/A (1)/Extras", true)]⟩ rfl).1 rfl,
    (claim_c5_season_directory_validation ⟨"/tv/A (1)/Season x", ["/e/ep1.mkv"], 0⟩
      ⟨[("/tv/A (1)/Season x", true)]⟩ rfl).2 0 rfl rfl⟩

/-- Counterexample for C5: the spec requires a non-negative season number,
but `"Season -1"` Atoi-parses and AddEpisodes succeeds, renaming the file to
an `S-1E01` name instead of failing. -/
theorem claim_c5_negative_season_accepted :
    (addEpisodes ⟨"/m/A (1)/Season -1", ["/dl/e5.mkv"], 0⟩
      ⟨[("/m/A (1)/Season -1", true), ("/dl/e5.mkv", false)]⟩).res = .ok () ∧
    (addEpisodes ⟨"/m/A (1)/Season -1", ["/dl/e5.mkv"], 0⟩
      ⟨[("/m/A (1)/Season -1", true), ("/dl/e5.mkv", false)]⟩).moves =
      [("/dl/e5.mkv", "/m/A (1)/Season -1/A S-1E01.mkv")] ∧
    goAtoi "-1" = (-1, true) := by
  have hsort : sortEpisodes ["/dl/e5.mkv"] 0 = .ok ["/dl/e5.mkv"] := by
    simp [sortEpisodes, validateRuns, digitRuns, digitRunsCh, goBase, goAtoi, parseDigits,
      digitsVal, atoiVal, epCmp, epKey, intCompare, goSortFunc, pdqsortCF, insertionSortCF,
      insCFAux, sinkCF, lswap, lgetD, maxInt64, minInt64, bitsLen, isDigitCh,
      List.takeWhile, List.dropWhile]
  have h := addEpisodes_eq_finish_empty ⟨"/m/A (1)/Season -1", ["/dl/e5.mkv"], 0⟩
    ⟨[("/m/A (1)/Season -1", true), ("/dl/e5.mkv", false)]⟩ (-1) "A" "1)" ["/dl/e5.mkv"]
    rfl rfl rfl rfl (by simp) rfl hsort rfl
  rw [h]
  exact ⟨rfl, rfl, rfl⟩

/-- Claim C1 (amended): appending N files to a season whose lexicographically
last entry carries the leftmost `E<digits>.` marker with digit value E
assigns episode numbers E+1 .. E+N in sorted-batch order, each exactly once,
provided E+N stays within int64; the Atoi range error on the parsed digits is
discarded and the per-file number is computed with wrapping int64 addition,
so the clean sequence is only guaranteed inside the int64 range. -/
theorem claim_c1_sequence_continuation (a : AdditionT) (fs : FS) (n : Int)
    (showName rest prevEp : String) (sorted : List String) (pre ds post : List Char)
    (hstat : statFS fs a.seasonDir = some true)
    (hpre : isPre "Season ".data (goBase a.seasonDir).data = true)
    (hN : goAtoi ⟨(goBase a.seasonDir).data.drop 7⟩ = (n, true))
    (hcut : goCut (goBase (goDir a.seasonDir)) yearSep = (showName, rest, true))
    (hne : a.episodes ≠ [])
    (hst2 : statEpisodes fs a.episodes = .ok ())
    (hsort : sortEpisodes a.episodes a.matchIndex = .ok sorted)
    (hlast : (readDirFS fs a.seasonDir).getLast? = some prevEp)
    (hshape : prevEp.data = pre ++ 'E' :: (ds ++ '.' :: post))
    (hEpre : 'E' ∉ pre) (hds : ds ≠ []) (hdig : ds.all isDigitCh = true)
    (hbound : (digitsVal ds : Int) + (sorted.length : Int) ≤ maxInt64)
    (hnd : sorted.Nodup) (hex : ∀ e ∈ sorted, (statFS fs e).isSome) :
    (addEpisodes a fs).res = .ok () ∧
    (addEpisodes a fs).moves = sorted.enum.map (fun p => (p.2,
      goJoin a.seasonDir (epName showName n
        ((digitsVal ds : Int) + (p.1 : Int) + 1) (goExt p.2)))) := by
  have hlen : (0 : Int) ≤ (sorted.length : Int) := Int.ofNat_nonneg _
  have hDle : (digitsVal ds : Int) ≤ maxInt64 := by omega
  have hparse : mediaLastEpisodeNumber prevEp = .ok ((digitsVal ds : Int)) := by
    rw [mediaLastEpisodeNumber_of_shape pre ds post prevEp hshape hEpre hds hdig]
    rw [atoiVal_of_digits ds hds hdig hDle]
  rw [addEpisodes_eq_finish a fs n ((digitsVal ds : Int)) showName rest prevEp sorted
    hstat hpre hN hcut hne hst2 hsort hlast hparse]
  rcases addFinish_spec a.seasonDir showName n ((digitsVal ds : Int)) sorted fs hnd hex
    with ⟨h1, h2, h3⟩
  refine ⟨h1, ?_⟩
  rw [h2]
  exact additionMoves_of_bounds a.seasonDir showName n ((digitsVal ds : Int)) sorted
    (Int.ofNat_nonneg _) hbound

/-- Witness for C1: appending one file after `A S02E03.mkv` produces exactly
`E04`. -/
theorem claim_c1_sequence_continuation_case :
    (addEpisodes ⟨"/m/A (1)/Season 02", ["/dl/e5.mkv"], 0⟩
      ⟨[("/m/A (1)/Season 02", true), ("/m/A (1)/Season 02/A S02E03.mkv", false),
        ("/dl/e5.mkv", false)]⟩).res = .ok () ∧
    (addEpisodes ⟨"/m/A (1)/Season 02", ["/dl/e5.mkv"], 0⟩
      ⟨[("/m/A (1)/Season 02", true), ("/m/A (1)/Season 02/A S02E03.mkv", false),
        ("/dl/e5.mkv", false)]⟩).moves =
      (["/dl/e5.mkv"] : List String).enum.map (fun p => (p.2,
        goJoin "/m/A (1)/Season 02" (epName "A" 2
          ((digitsVal "03".data : Int) + (p.1 : Int) + 1) (goExt p.2)))) :=
  claim_c1_sequence_continuation ⟨"/m/A (1)/Season 02", ["/dl/e5.mkv"], 0⟩
    ⟨[("/m/A (1)/Season 02", true), ("/m/A (1)/Season 02/A S02E03.mkv", false),
      ("/dl/e5.mkv", false)]⟩ 2 "A" "1)" "A S02E03.mkv" ["/dl/e5.mkv"]
    "A S02".data "03".data "mkv".data rfl rfl rfl rfl (by simp) rfl
    (by simp [sortEpisodes, validateRuns, digitRuns, digitRunsCh, goBase, goAtoi, parseDigits,
      digitsVal, atoiVal, epCmp, epKey, intCompare, goSortFunc, pdqsortCF, insertionSortCF,
      insCFAux, sinkCF, lswap, lgetD, maxInt64, minInt64, bitsLen, isDigitCh,
      List.takeWhile, List.dropWhile])
    rfl rfl (by decide) (by decide) rfl (by decide) (by decide) (by decide)

/-- Counterexample for C1: when the last entry's digits encode 2^63 the Atoi
range error is discarded, the offset clamps to 2^63-1, and the single
appended file is numbered -(2^63) by wrapping int64 addition instead of
E+1. -/
theorem claim_c1_offset_wraps_to_negative :
    (addEpisodes ⟨"/m/A (1)/Season 02", ["/dl/e5.mkv"], 0⟩
      ⟨[("/m/A (1)/Season 02", true),
        ("/m/A (1)/Season 02/A S02E9223372036854775808.mkv", false),
        ("/dl/e5.mkv", false)]⟩).res = .ok () ∧
    (addEpisodes ⟨"/m/A (1)/Season 02", ["/dl/e5.mkv"], 0⟩
      ⟨[("/m/A (1)/Season 02", true),
        ("/m/A (1)/Season 02/A S02E9223372036854775808.mkv", false),
        ("/dl/e5.mkv", false)]⟩).moves =
      [("/dl/e5.mkv", "/m/A (1)/Season 02/A S02E-9223372036854775808.mkv")] ∧
    (digitsVal "9223372036854775808".data : Int) = 9223372036854775808 ∧
    (-9223372036854775808 : Int) ≠ 9223372036854775808 + 1 := by
  have hsort : sortEpisodes ["/dl/e5.mkv"] 0 = .ok ["/dl/e5.mkv"] := by
    simp [sortEpisodes, validateRuns, digitRuns, digitRunsCh, goBase, goAtoi, parseDigits,
      digitsVal, atoiVal, epCmp, epKey, intCompare, goSortFunc, pdqsortCF, insertionSortCF,
      insCFAux, sinkCF, lswap, lgetD, maxInt64, minInt64, bitsLen, isDigitCh,
      List.takeWhile, List.dropWhile]
  have h := addEpisodes_eq_finish ⟨"/m/A (1)/Season 02", ["/dl/e5.mkv"], 0⟩
    ⟨[("/m/A (1)/Season 02", true),
      ("/m/A (1)/Season 02/A S02E9223372036854775808.mkv", false),
      ("/dl/e5.mkv", false)]⟩ 2 9223372036854775807 "A" "1)"
    "A S02E9223372036854775808.mkv" ["/dl/e5.mkv"]
    rfl rfl rfl rfl (by simp) rfl hsort rfl rfl
  rw [h]
  exact ⟨rfl, rfl, rfl, by decide⟩

/-- Claim C2 (amended): for every non-empty batch of at most 12 filenames in
which every base name has at least matchIndex+1 digit runs and the index is
non-negative, sortEpisodes succeeds, its output is a permutation of the
batch with the selected token non-decreasing, and items with equal tokens
keep their relative input order; beyond 12 elements `slices.SortFunc` is
pdqsort, which is not stable. -/
theorem claim_c2_sort_small_batches (eps : List String) (i : Int)
    (hlen : eps.length ≤ 12)
    (hi : ∀ e ∈ eps, 0 ≤ i ∧ i < ((digitRuns (goBase e)).length : Int)) :
    sortEpisodes eps i = .ok (goSortFunc (epCmp i) eps) ∧
    (goSortFunc (epCmp i) eps).Perm eps ∧
    (goSortFunc (epCmp i) eps).Pairwise (fun a b => epKey i a ≤ epKey i b) ∧
    ∀ k : Int, (goSortFunc (epCmp i) eps).filter (fun e => epKey i e = k) =
      eps.filter (fun e => epKey i e = k) := by
  have hsmall : goSortFunc (epCmp i) eps = goInsList (epKey i) eps := by
    rw [epCmp_eq_kcmp]
    exact goSortFunc_small (epKey i) eps hlen
  refine ⟨sortEpisodes_ok i eps hi, goSortFunc_perm _ _, ?_, ?_⟩
  · rw [hsmall]
    exact goInsList_sorted (epKey i) eps
  · intro k
    rw [hsmall]
    exact goInsList_filter (epKey i) eps k

/-- Witness for C2: a three-file batch with a tie at token 2 is sorted with
the tied pair kept in input order. -/
theorem claim_c2_sort_small_batches_case :
    sortEpisodes ["2b.m", "1x.m", "2a.m"] 0 =
      .ok (goSortFunc (epCmp 0) ["2b.m", "1x.m", "2a.m"]) ∧
    (goSortFunc (epCmp 0) ["2b.m", "1x.m", "2a.m"]).Perm ["2b.m", "1x.m", "2a.m"] ∧
    (goSortFunc (epCmp 0) ["2b.m", "1x.m", "2a.m"]).Pairwise
      (fun a b => epKey 0 a ≤ epKey 0 b) ∧
    ∀ k : Int, (goSortFunc (epCmp 0) ["2b.m", "1x.m", "2a.m"]).filter
        (fun e => epKey 0 e = k) =
      (["2b.m", "1x.m", "2a.m"] : List String).filter (fun e => epKey 0 e = k) :=
  claim_c2_sort_small_batches ["2b.m", "1x.m", "2a.m"] 0 (by decide)
    (by simp [digitRuns, digitRunsCh, goBase, isDigitCh, List.takeWhile, List.dropWhile])

set_option maxHeartbeats 8000000 in
/-- Counterexample for C2: at 13 elements the sort takes the pdqsort path and
swaps a tied pair, so the ordering is not stable for every batch. -/
theorem claim_c2_unstable_beyond_twelve :
    sortEpisodes ["12x.m", "11x.m", "10x.m", "9x.m", "8x.m", "7x.m", "6x.m", "5x.m",
        "4x.m", "3x.m", "2x.m", "1a.m", "1b.m"] 0 =
      .ok ["1b.m", "1a.m", "2x.m", "3x.m", "4x.m", "5x.m", "6x.m", "7x.m", "8x.m",
        "9x.m", "10x.m", "11x.m", "12x.m"] ∧
    (["1b.m", "1a.m", "2x.m", "3x.m", "4x.m", "5x.m", "6x.m", "7x.m", "8x.m", "9x.m",
      "10x.m", "11x.m", "12x.m"] : List String).filter (fun e => epKey 0 e = 1) =
      ["1b.m", "1a.m"] ∧
    (["12x.m", "11x.m", "10x.m", "9x.m", "8x.m", "7x.m", "6x.m", "5x.m", "4x.m", "3x.m",
      "2x.m", "1a.m", "1b.m"] : List String).filter (fun e => epKey 0 e = 1) =
      ["1a.m", "1b.m"] ∧
    epKey 0 "1a.m" = epKey 0 "1b.m" := by
  refine ⟨?_, ?_, ?_, ?_⟩
  · simp [sortEpisodes, validateRuns, digitRuns, digitRunsCh, goBase, goAtoi, parseDigits,
      digitsVal, atoiVal, epCmp, epKey, intCompare, goSortFunc, pdqsortCF, insertionSortCF,
      insCFAux, sinkCF, lswap, lgetD, maxInt64, minInt64, bitsLen, isDigitCh,
      pdqPre, pdqStep1, pdqStep2, pdqStep3, choosePivotCF, medianCF, medianAdjCF, order2CF,
      hintOfSwaps, partialInsertionSortCF, pisLoop, pisAdvance, pisStep, pisShiftLeft,
      pisShiftRight, breakPatternsCF, breakPatternsLoop, xorshiftNext, nextPow2,
      partitionCF, partAdvance, partRetreat, partLoop, partitionEqualCF, peqLoop, peqAdvance,
      peqRetreat, heapSortCF, heapBuildCF, heapPopCF, siftDownCF, reverseRangeC,
      reverseRangeCF, List.takeWhile, List.dropWhile]
  · simp [epKey, digitRuns, digitRunsCh, goBase, goAtoi, parseDigits, digitsVal, atoiVal,
      maxInt64, minInt64, isDigitCh, List.takeWhile, List.dropWhile, List.filter]
  · simp [epKey, digitRuns, digitRunsCh, goBase, goAtoi, parseDigits, digitsVal, atoiVal,
      maxInt64, minInt64, isDigitCh, List.takeWhile, List.dropWhile, List.filter]
  · simp [epKey, digitRuns, digitRunsCh, goBase, goAtoi, parseDigits, digitsVal, atoiVal,
      maxInt64, minInt64, isDigitCh, List.takeWhile, List.dropWhile]

/-- Claim C6 (amended): media.go rejects the last entry (invalid episode
entry) exactly when no `E<digits>.` substring occurs, and on the leftmost
such marker it returns the Atoi value of the digits with the error
discarded, so out-of-range digits are silently clamped rather than rejected;
the older epify generation instead slices between the first `E` and the
first `.`, rejecting a missing or inverted pair as an invalid entry and a
non-parsing slice with its separate invalid-episode-number error. -/
theorem claim_c6_last_entry_markers (s : String) :
    (mediaLastEpisodeNumber s = .error (.invalidEpisodeEntry s) ↔
      ¬ ∃ A ds B, s.data = A ++ 'E' :: (ds ++ '.' :: B) ∧ ds ≠ [] ∧
        ds.all isDigitCh = true) ∧
    (∀ pre ds post, s.data = pre ++ 'E' :: (ds ++ '.' :: post) → 'E' ∉ pre → ds ≠ [] →
      ds.all isDigitCh = true → mediaLastEpisodeNumber s = .ok (atoiVal ⟨ds⟩)) ∧
    ('E' ∉ s.data → epifyLastEpisodeNumber s = .error (.invalidEpisodeEntry s)) ∧
    ('.' ∉ s.data → epifyLastEpisodeNumber s = .error (.invalidEpisodeEntry s)) ∧
    (∀ pre mid post, s.data = pre ++ '.' :: (mid ++ 'E' :: post) → 'E' ∉ pre → 'E' ∉ mid →
      '.' ∉ pre → epifyLastEpisodeNumber s = .error (.invalidEpisodeEntry s)) ∧
    (∀ pre mid post v, s.data = pre ++ 'E' :: (mid ++ '.' :: post) → 'E' ∉ pre →
      '.' ∉ pre → '.' ∉ mid → goAtoi ⟨mid⟩ = (v, false) →
      epifyLastEpisodeNumber s = .error (.invalidEpisodeNumber s)) := by
  refine ⟨mediaLastEpisodeNumber_error_iff s, ?_, epify_error_noE s, epify_error_noDot s,
    ?_, ?_⟩
  · intro pre ds post hs hpre hds hdig
    exact mediaLastEpisodeNumber_of_shape pre ds post s hs hpre hds hdig
  · intro pre mid post hs h1 h2 h3
    exact epify_error_inverted pre mid post s hs h1 h2 h3
  · intro pre mid post v hs h1 h2 h3 hA
    rw [epify_of_shape pre mid post s hs h1 h2 h3, hA]

/-- Counterexample for C6: on out-of-range digits media.go silently clamps
the offset to 2^63-1 instead of failing, and the two generations disagree on
`EP S03E05.mkv`: the regex scanner accepts it (episode 5) while the
first-E/first-dot slicer reports an invalid episode number. -/
theorem claim_c6_range_error_ignored :
    mediaLastEpisodeNumber "A S02E9223372036854775808.mkv" = .ok 9223372036854775807 ∧
    goAtoi "9223372036854775808" = (9223372036854775807, false) ∧
    mediaLastEpisodeNumber "EP S03E05.mkv" = .ok 5 ∧
    epifyLastEpisodeNumber "EP S03E05.mkv" =
      .error (.invalidEpisodeNumber "EP S03E05.mkv") :=
  ⟨rfl, rfl, rfl, rfl⟩

/-- Claim C7: both operations cut the show directory's base name at the
first `" ("`: when no such separator occurs they fail with the invalid show
directory error, and when it occurs the part before its leftmost occurrence
is the show name carried into the rename stage. -/
theorem claim_c7_show_name_extraction (s : SeasonT) (a : AdditionT) (fs : FS) :
    (∀ n, goAtoi s.n = (n, true) → statFS fs s.showDir = some true →
      (∀ p q : String, goBase s.showDir ≠ p ++ yearSep ++ q) →
      mkSeason s fs = ⟨fs, .error (.invalidShowDirectory s.showDir), s.episodes, []⟩) ∧
    (∀ n showName rest sorted, goAtoi s.n = (n, true) → statFS fs s.showDir = some true →
      goCut (goBase s.showDir) yearSep = (showName, rest, true) → s.episodes ≠ [] →
      statEpisodes fs s.episodes = .ok () →
      sortEpisodes s.episodes s.matchIndex = .ok sorted →
      goBase s.showDir = showName ++ yearSep ++ rest ∧
      (∀ p q : String, goBase s.showDir = p ++ yearSep ++ q → showName.length ≤ p.length) ∧
      mkSeason s fs = mkSeasonFinish s.showDir showName n sorted fs) ∧
    (∀ n, statFS fs a.seasonDir = some true →
      isPre "Season ".data (goBase a.seasonDir).data = true →
      goAtoi ⟨(goBase a.seasonDir).data.drop 7⟩ = (n, true) →
      (∀ p q : String, goBase (goDir a.seasonDir) ≠ p ++ yearSep ++ q) →
      addEpisodes a fs = ⟨fs, .error (.invalidShowDirectory (goDir a.seasonDir)),
        a.episodes, []⟩) ∧
    (∀ n epn showName rest prevEp sorted, statFS fs a.seasonDir = some true →
      isPre "Season ".data (goBase a.seasonDir).data = true →
      goAtoi ⟨(goBase a.seasonDir).data.drop 7⟩ = (n, true) →
      goCut (goBase (goDir a.seasonDir)) yearSep = (showName, rest, true) →
      a.episodes ≠ [] → statEpisodes fs a.episodes = .ok () →
      sortEpisodes a.episodes a.matchIndex = .ok sorted →
      (readDirFS fs a.seasonDir).getLast? = some prevEp →
      mediaLastEpisodeNumber prevEp = .ok epn →
      goBase (goDir a.seasonDir) = showName ++ yearSep ++ rest ∧
      (∀ p q : String, goBase (goDir a.seasonDir) = p ++ yearSep ++ q →
        showName.length ≤ p.length) ∧
      addEpisodes a fs = addFinish a.seasonDir showName n epn sorted fs) := by
  refine ⟨?_, ?_, ?_, ?_⟩
  · intro n hN hstat hno
    rcases hgc : goCut (goBase s.showDir) yearSep with ⟨p0, q0, b⟩
    cases b
    · exact mkSeason_noSep s fs n hN hstat (by rw [hgc])
    · rcases goCut_some (goBase s.showDir) yearSep p0 q0 hgc with ⟨hdec, _⟩
      exact absurd hdec (hno p0 q0)
  · intro n showName rest sorted hN hstat hcut hne hst2 hsort
    rcases goCut_some (goBase s.showDir) yearSep showName rest hcut with ⟨hdec, hmin⟩
    exact ⟨hdec, hmin, mkSeason_eq_finish s fs n showName rest sorted hN hstat hcut hne
      hst2 hsort⟩
  · intro n hstat hpre hN hno
    rcases hgc : goCut (goBase (goDir a.seasonDir)) yearSep with ⟨p0, q0, b⟩
    cases b
    · exact addEpisodes_noSep a fs n hstat hpre hN (by rw [hgc])
    · rcases goCut_some (goBase (goDir a.seasonDir)) yearSep p0 q0 hgc with ⟨hdec, _⟩
      exact absurd hdec (hno p0 q0)
  · intro n epn showName rest prevEp sorted hstat hpre hN hcut hne hst2 hsort hlast hparse
    rcases goCut_some (goBase (goDir a.seasonDir)) yearSep showName rest hcut with ⟨hdec, hmin⟩
    exact ⟨hdec, hmin, addEpisodes_eq_finish a fs n epn showName rest prevEp sorted hstat
      hpre hN hcut hne hst2 hsort hlast hparse⟩

/-- Witness for C7: The Office's directory name is cut at its first `" ("`,
yielding the show name that the rename stage uses, with the cut position
minimal. -/
theorem claim_c7_show_name_extraction_case :
    goBase "/tv/The Office (2005) [tvdbid-73244]" =
      "The Office" ++ yearSep ++ "2005) [tvdbid-73244]" ∧
    (∀ p q : String, goBase "/tv/The Office (2005) [tvdbid-73244]" = p ++ yearSep ++ q →
      ("The Office" : String).length ≤ p.length) ∧
    mkSeason ⟨"3", "/tv/The Office (2005) [tvdbid-73244]", ["/e/ep1.mkv"], 0⟩
        ⟨[("/tv/The Office (2005) [tvdbid-73244]", true), ("/e/ep1.mkv", false)]⟩ =
      mkSeasonFinish "/tv/The Office (2005) [tvdbid-73244]" "The Office" 3 ["/e/ep1.mkv"]
        ⟨[("/tv/The Office (2005) [tvdbid-73244]", true), ("/e/ep1.mkv", false)]⟩ :=
  (claim_c7_show_name_extraction
    ⟨"3", "/tv/The Office (2005) [tvdbid-73244]", ["/e/ep1.mkv"], 0⟩
    ⟨"/tv/A (1)/Season 03", [], 0⟩
    ⟨[("/tv/The Office (2005) [tvdbid-73244]", true), ("/e/ep1.mkv", false)]⟩).2.1
    3 "The Office" "2005) [tvdbid-73244]" ["/e/ep1.mkv"] rfl rfl rfl (by simp) rfl
    (by simp [sortEpisodes, validateRuns, digitRuns, digitRunsCh, goBase, goAtoi, parseDigits,
      digitsVal, atoiVal, epCmp, epKey, intCompare, goSortFunc, pdqsortCF, insertionSortCF,
      insCFAux, sinkCF, lswap, lgetD, maxInt64, minInt64, bitsLen, isDigitCh,
      List.takeWhile, List.dropWhile])

/-- Claim C8 (amended): trdone picks the first directory entry of the media
root whose name cuts at `" ("` into a show name contained in the torrent
name; within it, it picks a season directory whose parsed number is the
maximum over all `"Season "`-shaped entries, but only when that maximum is
strictly positive, because the scan starts from zero with a strict
comparison (`Season 00` and non-positive numbers are never selected); on
success the single file is delegated to AddEpisodes, and a missing show or
season match is an error. -/
theorem claim_c8_trdone_resolution (dir trDir trName : String) (fs : FS) :
    (∀ ents name, trdonePickShow trName ents = some name →
      ∃ A B : List (String × Bool), ents = A ++ (name, true) :: B ∧
        (∃ showName rest, goCut name yearSep = (showName, rest, true) ∧
          containsSub trName showName = true) ∧
        ∀ e ∈ A, e.2 = false ∨ (goCut e.1 yearSep).2.2 = false ∨
          ∀ showName2 rest2, goCut e.1 yearSep = (showName2, rest2, true) →
            containsSub trName showName2 = false) ∧
    (∀ ents r, trdonePickSeason ents 0 none = .ok r →
      (r = none → ∀ name m, (name, true) ∈ ents → seasonShaped name m → m ≤ 0) ∧
      (∀ name, r = some name → ∃ m, (name, true) ∈ ents ∧ seasonShaped name m ∧ 0 < m ∧
        ∀ name2 m2, (name2, true) ∈ ents → seasonShaped name2 m2 → m2 ≤ m)) ∧
    (statFS fs dir = some true → (readDirEntsFS fs dir).isEmpty = false →
      (trdonePickShow trName (readDirEntsFS fs dir) = none →
        trdoneRun dir trDir trName fs = ⟨fs, .error (.noShowDirectory trName), [], []⟩) ∧
      (∀ name, trdonePickShow trName (readDirEntsFS fs dir) = some name →
        (readDirEntsFS fs (goJoin dir name)).isEmpty = false →
        (trdonePickSeason (readDirEntsFS fs (goJoin dir name)) 0 none = .ok none →
          trdoneRun dir trDir trName fs =
            ⟨fs, .error (.noSeasonDirectory (goJoin dir name)), [], []⟩) ∧
        (∀ sname, trdonePickSeason (readDirEntsFS fs (goJoin dir name)) 0 none =
            .ok (some sname) →
          trdoneRun dir trDir trName fs =
            addEpisodes ⟨goJoin (goJoin dir name) sname, [goJoin trDir trName], 0⟩ fs))) := by
  refine ⟨fun ents name h => trdonePickShow_some trName ents name h,
    fun ents r h => trdonePickSeason_top ents r h, ?_⟩
  intro hstat hne
  refine ⟨fun hpick => trdoneRun_noShow dir trDir trName fs hstat hne hpick, ?_⟩
  intro name hpick hne2
  exact ⟨fun hseason => trdoneRun_noSeason dir trDir trName name fs hstat hne hpick hne2
      hseason,
    fun sname hseason => trdoneRun_delegates dir trDir trName name sname fs hstat hne hpick
      hne2 hseason⟩

/-- Witness for C8: with `Season 01` present the torrent file is delegated
to AddEpisodes on the joined season path. -/
theorem claim_c8_trdone_resolution_case :
    trdoneRun "/m" "/t" "A ep.mkv" ⟨[("/m", true), ("/m/A (1)", true),
        ("/m/A (1)/Season 01", true), ("/t/A ep.mkv", false)]⟩ =
      addEpisodes ⟨goJoin (goJoin "/m" "A (1)") "Season 01", [goJoin "/t" "A ep.mkv"], 0⟩
        ⟨[("/m", true), ("/m/A (1)", true), ("/m/A (1)/Season 01", true),
          ("/t/A ep.mkv", false)]⟩ :=
  ((claim_c8_trdone_resolution "/m" "/t" "A ep.mkv" ⟨[("/m", true), ("/m/A (1)", true),
      ("/m/A (1)/Season 01", true), ("/t/A ep.mkv", false)]⟩).2.2 rfl rfl).2
    "A (1)" rfl rfl |>.2 "Season 01" rfl

/-- Counterexample for C8: a show whose only season directory is
`Season 00` makes trdone report that no season directory exists, because the
scan's running maximum starts at 0 and only a strictly greater season is
kept. -/
theorem claim_c8_season_zero_never_selected :
    trdoneRun "/m" "/t" "A ep.mkv" ⟨[("/m", true), ("/m/A (1)", true),
        ("/m/A (1)/Season 00", true), ("/t/A ep.mkv", false)]⟩ =
      ⟨⟨[("/m", true), ("/m/A (1)", true), ("/m/A (1)/Season 00", true),
        ("/t/A ep.mkv", false)]⟩, .error (.noSeasonDirectory "/m/A (1)"), [], []⟩ ∧
    ("Season 00", true) ∈ readDirEntsFS ⟨[("/m", true), ("/m/A (1)", true),
      ("/m/A (1)/Season 00", true), ("/t/A ep.mkv", false)]⟩ "/m/A (1)" ∧
    isPre "Season ".data "Season 00".data = true ∧
    goAtoi "00" = (0, true) :=
  ⟨rfl, by decide, rfl, rfl⟩
